/-
Verification of the torrent-streamer core against its specification.

Shallow embedding of the TypeScript sources:
  * `src/domain/value-objects/ByteRange.ts`        → `ByteRange`
  * `src/infrastructure/streaming/utils/RangeResponseBuilder.ts` (RangeNormalizer)
                                                   → `RangeNormalizer.normalize`
  * `src/infrastructure/streaming/utils/RangeParser.ts` → `RangeParser.parse`
  * `src/infrastructure/streaming/WebTorrentStreamService.ts`   → `handleRangeRequest`
  * `src/infrastructure/torrent/TorrentExtension.ts`  → `extendedSelect` / `extendedDeselect`
  * `src/utils/memory-limited-store.ts`            → `GlobalMemoryTracker` / `MemoryLimitedStore`

JavaScript numbers that only ever hold integers (byte offsets, sizes,
piece indices, counters) are modelled as `Int` or `Nat`; JS `Map`s are
modelled as insertion-ordered association lists (JS `Map` iterates in
insertion order and `set` keeps the position of an existing key);
JS `Set`s as duplicate-free lists; a thrown `Error` or a returned
`null` as `Option.none` / `Except.error`.
-/
import Mathlib

/-! ### ByteRange (`src/domain/value-objects/ByteRange.ts`) -/

/-- Immutable byte range `{start, end}`.  The TypeScript field `end` is a
Lean keyword and is rendered `endB`. -/
structure ByteRange where
  start : Int
  endB : Int
deriving Repr, DecidableEq

/-- The `ByteRange` constructor: throws (here `none`) when `start < 0`,
`end < 0` or `start > end`; otherwise returns the range. -/
def ByteRange.mk? (start endB : Int) : Option ByteRange :=
  if start < 0 ∨ endB < 0 then none
  else if start > endB then none
  else some { start := start, endB := endB }

/-- `get size()`: `end - start + 1`. -/
def ByteRange.size (r : ByteRange) : Int :=
  r.endB - r.start + 1

/-- `isValid(fileSize)`: `start < fileSize && end < fileSize && start <= end`. -/
def ByteRange.isValid (r : ByteRange) (fileSize : Int) : Bool :=
  r.start < fileSize && r.endB < fileSize && r.start ≤ r.endB

/-- `applyChunkLimit(chunkSize, fileSize)`:
`maxEnd = min(start + chunkSize - 1, fileSize - 1)`,
`finalEnd = min(end, maxEnd)`, then the constructor. -/
def ByteRange.applyChunkLimit (r : ByteRange) (chunkSize fileSize : Int) : Option ByteRange :=
  let maxEnd := min (r.start + chunkSize - 1) (fileSize - 1)
  let finalEnd := min r.endB maxEnd
  ByteRange.mk? r.start finalEnd

/-- `static fromSuffix(suffix, fileSize)`:
`start = max(fileSize - suffix, 0)`, `end = fileSize - 1`, then the
constructor (which throws when `start > end`). -/
def ByteRange.fromSuffix (suffix fileSize : Int) : Option ByteRange :=
  ByteRange.mk? (max (fileSize - suffix) 0) (fileSize - 1)

/-- `static fromStartOnly(start, chunkSize, fileSize)`. -/
def ByteRange.fromStartOnly (start chunkSize fileSize : Int) : Option ByteRange :=
  let clampedStart := min (max start 0) (fileSize - 1)
  ByteRange.mk? clampedStart (min (clampedStart + chunkSize - 1) (fileSize - 1))

/-- `static initialChunk(chunkSize, fileSize)`. -/
def ByteRange.initialChunk (chunkSize fileSize : Int) : Option ByteRange :=
  ByteRange.mk? 0 (min (chunkSize - 1) (fileSize - 1))

/-- `static fromStartEnd(start, end, fileSize)`: clamps both bounds to
`[0, fileSize-1]` and returns `null` (here `none`) when the clamped end
is below the clamped start. -/
def ByteRange.fromStartEnd (start endB fileSize : Int) : Option ByteRange :=
  let clampedStart := min (max start 0) (fileSize - 1)
  let clampedEnd := min (max endB 0) (fileSize - 1)
  if clampedEnd < clampedStart then none
  else ByteRange.mk? clampedStart clampedEnd

/-! ### ParsedRange (`src/domain/value-objects/ParsedRange.ts`) and
RangeNormalizer (`src/infrastructure/streaming/utils/RangeResponseBuilder.ts`) -/

/-- The three accepted Range-header shapes. -/
inductive ParsedRange where
  | startOnly (start : Int)
  | startEnd (start endB : Int)
  | suffix (suffix : Int)
deriving Repr, DecidableEq

/-- `RangeNormalizer.normalize(parsed, fileSize, chunkSize, …)`:
dispatch on the parsed shape, then the final `isValid` check; any
`null`/throw is `none`. -/
def RangeNormalizer.normalize (parsed : ParsedRange) (fileSize chunkSize : Int) :
    Option ByteRange :=
  let range : Option ByteRange :=
    match parsed with
    | .suffix s => ByteRange.fromSuffix s fileSize
    | .startOnly s => ByteRange.fromStartOnly s chunkSize fileSize
    | .startEnd s e => ByteRange.fromStartEnd s e fileSize
  match range with
  | none => none
  | some r => if r.isValid fileSize then some r else none

/-! ### RangeParser (`src/infrastructure/streaming/utils/RangeParser.ts`) -/

inductive RangeParseError where
  | invalidFormat
  | multipleRanges
  | invalidNumber
  | negativeValue
deriving Repr, DecidableEq

/-- `RangeParseResult`: `{success: false, error}` or
`{success: true, value}` (the human-readable `message` is dropped). -/
inductive RangeParseResult where
  | failure (e : RangeParseError)
  | success (v : ParsedRange)
deriving Repr, DecidableEq

/-- Strings are handled as their character lists (a JS string is a
sequence of code units); `listStartsWith p s` is `s.startsWith(p)`. -/
def listStartsWith : List Char → List Char → Bool
  | [], _ => true
  | _ :: _, [] => false
  | p :: ps, c :: cs => p = c && listStartsWith ps cs

/-- JS `String.split` with a one-character separator: cut at every
occurrence; `"".split(sep)` is `[""]`. -/
def splitOnChar (sep : Char) : List Char → List (List Char)
  | [] => [[]]
  | c :: rest =>
    let r := splitOnChar sep rest
    if c = sep then [] :: r
    else
      match r with
      | h :: t => (c :: h) :: t
      | [] => [[c]]

/-- JS `String.trim`: strip leading and trailing whitespace. -/
def jsTrim (cs : List Char) : List Char :=
  (((cs.dropWhile Char.isWhitespace).reverse).dropWhile Char.isWhitespace).reverse

/-- JavaScript `parseInt(s, 10)`: skip leading whitespace, read an
optional sign and then the longest leading run of decimal digits;
`NaN` (here `none`) when that run is empty; any trailing characters are
ignored. -/
def jsParseInt (s : List Char) : Option Int :=
  let cs := s.dropWhile Char.isWhitespace
  let signAndRest : Int × List Char :=
    match cs with
    | '-' :: t => (-1, t)
    | '+' :: t => (1, t)
    | _ => (1, cs)
  let ds := signAndRest.2.takeWhile Char.isDigit
  if ds.isEmpty then none
  else some (signAndRest.1 * ds.foldl (fun acc c => acc * 10 + ((c.toNat : Int) - ('0'.toNat : Int))) 0)

/-- The components a Range header is cut into: strip a leading
`bytes=`, split on `-`, trim each part.  (Helper used to state what
`RangeParser.parse` consumes.) -/
def rangeComponents (range : String) : List (List Char) :=
  ((splitOnChar '-'
      (if listStartsWith "bytes=".data range.data then range.data.drop 6 else range.data)).map
    jsTrim)

/-- The dispatch of `RangeParser.parse` on the two trimmed parts
(lines 42–96 of `RangeParser.ts`): empty start means suffix form,
empty end means start-only form, both nonempty is the fixed range. -/
def RangeParser.parseParts (startStr endStr : List Char) : RangeParseResult :=
  if startStr = [] ∧ endStr ≠ [] then
    match jsParseInt endStr with
    | none => .failure .invalidNumber
    | some suffix =>
      if suffix < 0 then .failure .negativeValue
      else .success (.suffix suffix)
  else if startStr ≠ [] ∧ endStr = [] then
    match jsParseInt startStr with
    | none => .failure .invalidNumber
    | some start => .success (.startOnly start)
  else if startStr ≠ [] ∧ endStr ≠ [] then
    match jsParseInt startStr, jsParseInt endStr with
    | some start, some endB => .success (.startEnd start endB)
    | _, _ => .failure .invalidNumber
  else .failure .invalidFormat

/-- `RangeParser.parse(range)`: strip the `^bytes=` anchor, reject an
empty remainder and comma-separated range lists, split on `-` into
exactly two parts and dispatch. -/
def RangeParser.parse (range : String) : RangeParseResult :=
  let rangeValue :=
    if listStartsWith "bytes=".data range.data then range.data.drop 6 else range.data
  if rangeValue = [] then .failure .invalidFormat
  else if rangeValue.contains ',' then .failure .multipleRanges
  else
    match splitOnChar '-' rangeValue with
    | [startRaw, endRaw] => RangeParser.parseParts (jsTrim startRaw) (jsTrim endRaw)
    | _ => .failure .invalidFormat

/-! ### Stream responder
(`src/infrastructure/streaming/WebTorrentStreamService.ts`,
`_handleRangeRequest`, lines 88–126) -/

/-- Outcome of `_handleRangeRequest` as observable on the HTTP side:
either a 416 or a 206 for the byte span `[start, endB]`. -/
inductive StreamResponse where
  | status416
  | status206 (start endB : Int)
deriving Repr, DecidableEq

/-- Result of `_handleRangeRequest` together with whether the
"Timeout waiting for pieces, sending anyway" warning was logged. -/
structure RangeRequestOutcome where
  response : StreamResponse
  warnedTimeout : Bool
deriving Repr, DecidableEq

/-- `_handleRangeRequest` after the header is cut into `start` and
`requestedEnd` (`parts[1]` missing defaults to `fileSize - 1`):
clamp the end to the fixed chunk size, answer 416 when
`start >= fileSize`, otherwise prioritize, wait for the pieces with a
bounded timeout (its boolean outcome is `piecesReady`), and answer 206
for `[start, end]` either way — a timeout only logs a warning. -/
def handleRangeRequest (start requestedEnd fileSize chunkSize : Int)
    (piecesReady : Bool) : RangeRequestOutcome :=
  let maxAllowedEnd := min (start + chunkSize - 1) (fileSize - 1)
  let endB := min requestedEnd maxAllowedEnd
  if start ≥ fileSize then
    { response := .status416, warnedTimeout := false }
  else
    { response := .status206 start endB, warnedTimeout := !piecesReady }

/-! ### TorrentExtension (`src/infrastructure/torrent/TorrentExtension.ts`) -/

/-- `PrioritizedPiece` record: `{pieceIndex, priority, selectedAt}`.
`selectedAt` is a `Date`; modelled as a timestamp. -/
structure PrioritizedPiece where
  pieceIndex : Int
  priority : Nat
  selectedAt : Nat
deriving Repr, DecidableEq

/-- The dynamic argument `priority?: number | boolean | undefined`. -/
inductive JsPriority where
  | num (n : Int)
  | bool (b : Bool)
  | undef
deriving Repr, DecidableEq

/-- `normalizePriority`: booleans map to HIGH/NONE, numbers are bucketed
into NONE=0, LOW=1, NORMAL=2, HIGH=3, CRITICAL=4, `undefined` to NONE. -/
def normalizePriority : JsPriority → Nat
  | .bool b => if b then 3 else 0
  | .num n =>
    if n ≤ 0 then 0
    else if n ≤ 1 then 1
    else if n ≤ 2 then 2
    else if n ≤ 3 then 3
    else 4
  | .undef => 0

/-- The tracked prioritized-pieces `Map<number, PrioritizedPiece>`,
as an insertion-ordered association list. -/
abbrev PMap := List (Int × PrioritizedPiece)

def pmapGet (m : PMap) (i : Int) : Option PrioritizedPiece :=
  match m with
  | [] => none
  | (k, v) :: rest => if k = i then some v else pmapGet rest i

/-- JS `Map.set`: overwrite an existing key in place, else append. -/
def pmapSet (m : PMap) (i : Int) (v : PrioritizedPiece) : PMap :=
  match m with
  | [] => [(i, v)]
  | (k, w) :: rest => if k = i then (i, v) :: rest else (k, w) :: pmapSet rest i v

/-- JS `Map.delete`. -/
def pmapDelete (m : PMap) (i : Int) : PMap :=
  match m with
  | [] => []
  | (k, w) :: rest => if k = i then rest else (k, w) :: pmapDelete rest i

/-- The piece indices visited by `for (let i = start; i <= end; i++)`. -/
def intRangeList (start endB : Int) : List Int :=
  (List.range (endB + 1 - start).toNat).map (fun k : Nat => start + (k : Int))

/-- One iteration of `extendedSelect`'s loop body at piece `i`:
update when the entry is absent or the new level is `>=` the tracked
one, keeping the original `selectedAt` of an existing entry
(`existing?.selectedAt || now`; a `Date` is always truthy). -/
def selectStep (level now : Nat) (m : PMap) (i : Int) : PMap :=
  match pmapGet m i with
  | none => pmapSet m i { pieceIndex := i, priority := level, selectedAt := now }
  | some e =>
    if level ≥ e.priority then pmapSet m i { pieceIndex := i, priority := level, selectedAt := e.selectedAt }
    else m

/-- `extendedSelect(start, end, priority)` restricted to its effect on
the tracked map (the pass-through call to the engine's original
`select` is an external side effect). Only levels `> 0` are tracked. -/
def extendedSelect (m : PMap) (start endB : Int) (priority : JsPriority) (now : Nat) : PMap :=
  let level := normalizePriority priority
  if level > 0 then (intRangeList start endB).foldl (selectStep level now) m
  else m

/-- One iteration of `extendedDeselect`'s loop body at piece `i`:
delete the entry iff it exists and its priority equals the level
being deselected. -/
def deselectStep (level : Nat) (m : PMap) (i : Int) : PMap :=
  match pmapGet m i with
  | some e => if e.priority = level then pmapDelete m i else m
  | none => m

/-- `extendedDeselect(start, end, priority)` restricted to its effect on
the tracked map. -/
def extendedDeselect (m : PMap) (start endB : Int) (priority : JsPriority) : PMap :=
  let level := normalizePriority priority
  (intRangeList start endB).foldl (deselectStep level) m

/-- State of a tracked piece after a `select` at `level` has seen it:
the entry exists, and either it outranks `level` (the select skipped
it) or it is exactly the entry a `select` at `level` writes. -/
def selInv (level : Nat) (m : PMap) (i : Int) : Prop :=
  ∃ e, pmapGet m i = some e ∧ (level < e.priority ∨ (e.pieceIndex = i ∧ e.priority = level))

/-! ### Memory-limited store (`src/utils/memory-limited-store.ts`) -/

abbrev StoreId := String

/-- `ChunkInfo`: `{index, size, lastUsed}`. -/
structure ChunkInfo where
  index : Nat
  size : Nat
  lastUsed : Nat
deriving Repr, DecidableEq

/-- The registry type `Map<string, ChunkInfo[]>`, as an
insertion-ordered association list. -/
abbrev ChunkRegistry := List (StoreId × List ChunkInfo)

def regLookup (m : ChunkRegistry) (sid : StoreId) : Option (List ChunkInfo) :=
  match m with
  | [] => none
  | (k, v) :: rest => if k = sid then some v else regLookup rest sid

/-- JS `Map.set`: overwrite an existing key in place, else append. -/
def regSet (m : ChunkRegistry) (sid : StoreId) (v : List ChunkInfo) : ChunkRegistry :=
  match m with
  | [] => [(sid, v)]
  | (k, w) :: rest => if k = sid then (sid, v) :: rest else (k, w) :: regSet rest sid v

/-- JS `Map.delete`. -/
def regDelete (m : ChunkRegistry) (sid : StoreId) : ChunkRegistry :=
  match m with
  | [] => []
  | (k, w) :: rest => if k = sid then rest else (k, w) :: regDelete rest sid

/-- `GlobalMemoryTracker` state: running byte total, per-store chunk
lists, the fixed budget and the global access counter. -/
structure GlobalMemoryTracker where
  totalMemory : Int
  chunks : ChunkRegistry
  maxMemory : Int
  accessCounter : Nat
deriving Repr, DecidableEq

/-- `private constructor(maxMemory)`. -/
def GlobalMemoryTracker.create (maxMemory : Int) : GlobalMemoryTracker :=
  { totalMemory := 0, chunks := [], maxMemory := maxMemory, accessCounter := 0 }

/-- `static getInstance(maxMemory)`: lazily create the singleton; a
pre-existing instance is returned unchanged and the argument ignored. -/
def GlobalMemoryTracker.getInstance (slot : Option GlobalMemoryTracker) (maxMemory : Int) :
    GlobalMemoryTracker :=
  match slot with
  | some t => t
  | none => GlobalMemoryTracker.create maxMemory

def GlobalMemoryTracker.getMaxMemory (t : GlobalMemoryTracker) : Int :=
  t.maxMemory

def GlobalMemoryTracker.getTotalMemory (t : GlobalMemoryTracker) : Int :=
  t.totalMemory

/-- All chunks of a registry, tagged with their owning store, in
registry iteration order (the order the nested `for … of` loops visit
them). -/
def flatReg (m : ChunkRegistry) : List (StoreId × ChunkInfo) :=
  m.flatMap (fun p => p.2.map (fun c => (p.1, c)))

/-- All registered chunks of a tracker, in iteration order. -/
def GlobalMemoryTracker.allChunksList (t : GlobalMemoryTracker) : List (StoreId × ChunkInfo) :=
  flatReg t.chunks

/-- Update the first chunk with the given index in place
(`existing.size = size; existing.lastUsed = …`). -/
def updateChunk : List ChunkInfo → Nat → Nat → Nat → List ChunkInfo
  | [], _, _, _ => []
  | c :: cs, index, size, used =>
    if c.index = index then { c with size := size, lastUsed := used } :: cs
    else c :: updateChunk cs index size used

/-- Bump `lastUsed` of the first chunk with the given index. -/
def touchChunk : List ChunkInfo → Nat → Nat → List ChunkInfo
  | [], _, _ => []
  | c :: cs, index, used =>
    if c.index = index then { c with lastUsed := used } :: cs
    else c :: touchChunk cs index used

/-- `findIndex`/`splice` pair: remove the first chunk with the given
index, returning it and the remaining list. -/
def removeFirstIndex : List ChunkInfo → Nat → Option (ChunkInfo × List ChunkInfo)
  | [], _ => none
  | c :: cs, index =>
    if c.index = index then some (c, cs)
    else (removeFirstIndex cs index).map (fun p => (p.1, c :: p.2))

/-- The strict-minimum scan of `evictIfNeeded`'s nested loops: walk the
chunks in iteration order keeping the first chunk whose `lastUsed` is
strictly below the best so far (`oldestTime` starts at `Infinity`). -/
def oldestScan (acc : Option (StoreId × ChunkInfo)) :
    List (StoreId × ChunkInfo) → Option (StoreId × ChunkInfo)
  | [] => acc
  | x :: xs =>
    oldestScan
      (match acc with
       | none => some x
       | some b => if x.2.lastUsed < b.2.lastUsed then some x else some b) xs

/-- `evictIfNeeded`'s per-iteration search for the least recently used
chunk across all stores. -/
def GlobalMemoryTracker.findOldest (t : GlobalMemoryTracker) : Option (StoreId × ChunkInfo) :=
  oldestScan none t.allChunksList

/-- One iteration of `evictIfNeeded`'s removal: look the store up, find
the first chunk with the oldest chunk's index, subtract the oldest
chunk's size and splice the found chunk out. -/
def GlobalMemoryTracker.removeOldestStep (t : GlobalMemoryTracker) (sid : StoreId)
    (c : ChunkInfo) : GlobalMemoryTracker :=
  match regLookup t.chunks sid with
  | none => t
  | some storeChunks =>
    match removeFirstIndex storeChunks c.index with
    | none => t
    | some (_, rest) =>
      { t with totalMemory := t.totalMemory - c.size, chunks := regSet t.chunks sid rest }

/-- Total number of registered chunks; an upper bound on the number of
iterations of the `while` loop in `evictIfNeeded` (each iteration that
does not `break` removes one chunk). -/
def GlobalMemoryTracker.chunkCount (t : GlobalMemoryTracker) : Nat :=
  t.allChunksList.length

/-- The `while (totalMemory > maxMemory)` loop of `evictIfNeeded`,
with explicit fuel (`chunkCount` suffices, see above). -/
def evictIfNeededGo : Nat → GlobalMemoryTracker → GlobalMemoryTracker
  | 0, t => t
  | Nat.succ n, t =>
    if t.totalMemory > t.maxMemory then
      match t.findOldest with
      | none => t
      | some (sid, c) => evictIfNeededGo n (t.removeOldestStep sid c)
    else t

/-- `private evictIfNeeded()`. -/
def GlobalMemoryTracker.evictIfNeeded (t : GlobalMemoryTracker) : GlobalMemoryTracker :=
  evictIfNeededGo t.chunkCount t

/-- `addChunk(storeId, index, size)`: ensure the store's list exists,
update an existing chunk of the same index in place (adjusting the
running total) or push a new one, stamp a fresh counter value, add the
new size and run `evictIfNeeded`. -/
def GlobalMemoryTracker.addChunk (t : GlobalMemoryTracker) (storeId : StoreId)
    (index size : Nat) : GlobalMemoryTracker :=
  let m := if (regLookup t.chunks storeId).isSome then t.chunks else regSet t.chunks storeId []
  let storeChunks := (regLookup m storeId).getD []
  let t1 :=
    match storeChunks.find? (fun c => c.index = index) with
    | some existing =>
      { t with
          totalMemory := t.totalMemory - existing.size
          chunks := regSet m storeId (updateChunk storeChunks index size (t.accessCounter + 1))
          accessCounter := t.accessCounter + 1 }
    | none =>
      { t with
          chunks := regSet m storeId
            (storeChunks ++ [({ index := index, size := size, lastUsed := t.accessCounter + 1 } : ChunkInfo)])
          accessCounter := t.accessCounter + 1 }
  GlobalMemoryTracker.evictIfNeeded { t1 with totalMemory := t1.totalMemory + size }

/-- `removeChunk(storeId, index)`. -/
def GlobalMemoryTracker.removeChunk (t : GlobalMemoryTracker) (storeId : StoreId)
    (index : Nat) : GlobalMemoryTracker :=
  match regLookup t.chunks storeId with
  | none => t
  | some storeChunks =>
    match removeFirstIndex storeChunks index with
    | none => t
    | some (c, rest) =>
      { t with totalMemory := t.totalMemory - c.size, chunks := regSet t.chunks storeId rest }

/-- `accessChunk(storeId, index)`: refresh `lastUsed` of the chunk when
it is registered. -/
def GlobalMemoryTracker.accessChunk (t : GlobalMemoryTracker) (storeId : StoreId)
    (index : Nat) : GlobalMemoryTracker :=
  match regLookup t.chunks storeId with
  | none => t
  | some storeChunks =>
    if (storeChunks.find? (fun c => c.index = index)).isSome then
      { t with
          chunks := regSet t.chunks storeId (touchChunk storeChunks index (t.accessCounter + 1))
          accessCounter := t.accessCounter + 1 }
    else t

def sumSizes (cs : List ChunkInfo) : Nat :=
  (cs.map ChunkInfo.size).sum

/-- `removeStore(storeId)`: subtract every chunk's size and drop the
store's entry. -/
def GlobalMemoryTracker.removeStore (t : GlobalMemoryTracker) (storeId : StoreId) :
    GlobalMemoryTracker :=
  match regLookup t.chunks storeId with
  | none => t
  | some storeChunks =>
    { t with
        totalMemory := t.totalMemory - (sumSizes storeChunks : Int)
        chunks := regDelete t.chunks storeId }

/-! #### MemoryLimitedStore -/

/-- A chunk payload (`Buffer`), modelled as its list of bytes. -/
abbrev JsBuffer := List Nat

/-- Per-store wrapper state.  `store` is the underlying
`memory-chunk-store` backend.  Modelled from the spec: the backend is a
byte-indexed chunk storage plug-point external to this repository
(§6); `put` records the buffer at its index and `get` returns the
recorded buffer or a not-found error. -/
structure MemoryLimitedStore where
  storeId : StoreId
  evictedChunks : List Nat
  store : List (Nat × JsBuffer)
deriving Repr, DecidableEq

/-- Fresh store as built by the constructor (empty backend, empty
evicted set). -/
def MemoryLimitedStore.create (storeId : StoreId) : MemoryLimitedStore :=
  { storeId := storeId, evictedChunks := [], store := [] }

def bufLookup (m : List (Nat × JsBuffer)) (i : Nat) : Option JsBuffer :=
  match m with
  | [] => none
  | (k, v) :: rest => if k = i then some v else bufLookup rest i

def bufSet (m : List (Nat × JsBuffer)) (i : Nat) (v : JsBuffer) : List (Nat × JsBuffer) :=
  match m with
  | [] => [(i, v)]
  | (k, w) :: rest => if k = i then (i, v) :: rest else (k, w) :: bufSet rest i v

/-- `Set.add` on the evicted-index set. -/
def setAdd (s : List Nat) (i : Nat) : List Nat :=
  if s.contains i then s else s ++ [i]

/-- The chunks ordered by `lastUsed` ascending, oldest first — the
`allChunks.sort((a, b) => a.chunk.lastUsed - b.chunk.lastUsed)` snapshot
taken by `evictChunks` (counter values are pairwise distinct in any
reachable state, so any sort gives the same list). -/
def sortedAllChunks (t : GlobalMemoryTracker) : List (StoreId × ChunkInfo) :=
  List.insertionSort (fun a b => a.2.lastUsed ≤ b.2.lastUsed) t.allChunksList

/-- The prefix of the sorted snapshot that `evictChunks`'s loop
processes: keep taking chunks until `freed >= requiredSize`. -/
def evictTargets (required : Nat) : List (StoreId × ChunkInfo) → Nat → List (StoreId × ChunkInfo)
  | [], _ => []
  | x :: rest, freed =>
    if required ≤ freed then []
    else x :: evictTargets required rest (freed + x.2.size)

/-- `private evictChunks(requiredSize)`: sort the snapshot of all
registered chunks by `lastUsed`, walk it until enough bytes are freed,
marking chunks of this store as evicted and removing every processed
chunk from the tracker. -/
def MemoryLimitedStore.evictChunks (s : MemoryLimitedStore) (tracker : GlobalMemoryTracker)
    (requiredSize : Nat) : MemoryLimitedStore × GlobalMemoryTracker :=
  let targets := evictTargets requiredSize (sortedAllChunks tracker) 0
  let ev' := targets.foldl
    (fun ev p => if p.1 = s.storeId then setAdd ev p.2.index else ev) s.evictedChunks
  let tracker' := targets.foldl (fun tr p => tr.removeChunk p.1 p.2.index) tracker
  ({ s with evictedChunks := ev' }, tracker')

/-- `put(index, buf)`: pre-evict when the write would exceed the budget,
register the chunk, clear a stale evicted marker and store the bytes.
Modelled from the spec: the in-memory backend's `put` succeeds, so the
error path that unregisters the chunk is not taken. -/
def MemoryLimitedStore.put (s : MemoryLimitedStore) (tracker : GlobalMemoryTracker)
    (index : Nat) (buf : JsBuffer) : MemoryLimitedStore × GlobalMemoryTracker :=
  let size := buf.length
  let (s1, tr1) :=
    if tracker.getTotalMemory + (size : Int) > tracker.getMaxMemory then
      s.evictChunks tracker size
    else (s, tracker)
  let tr2 := tr1.addChunk s.storeId index size
  let s2 := { s1 with
      evictedChunks := s1.evictedChunks.filter (fun j => j ≠ index)
      store := bufSet s1.store index buf }
  (s2, tr2)

/-- Result of `get`: the wrapper's "Chunk not found" error with
`notFound = true`, a miss in the underlying backend, or the bytes. -/
inductive GetResult where
  | notFound
  | storeMiss
  | found (buf : JsBuffer)
deriving Repr, DecidableEq

/-- `get(index)`: answer `notFound` for indices marked evicted,
otherwise refresh the LRU stamp and read the underlying backend. -/
def MemoryLimitedStore.get (s : MemoryLimitedStore) (tracker : GlobalMemoryTracker)
    (index : Nat) : GetResult × GlobalMemoryTracker :=
  if s.evictedChunks.contains index then (.notFound, tracker)
  else
    let tr := tracker.accessChunk s.storeId index
    match bufLookup s.store index with
    | some buf => (.found buf, tr)
    | none => (.storeMiss, tr)

/-- `close()`: unregister every chunk of this store. -/
def MemoryLimitedStore.close (s : MemoryLimitedStore) (tracker : GlobalMemoryTracker) :
    GlobalMemoryTracker :=
  tracker.removeStore s.storeId

/-- The constructor of `MemoryLimitedStore` as seen by the static
singleton slot of `GlobalMemoryTracker`: each construction runs
`getInstance(maxMemory)` and stores the result back into the slot. -/
def constructAll (slot : Option GlobalMemoryTracker) : List Int → Option GlobalMemoryTracker
  | [] => slot
  | m :: ms => constructAll (some (GlobalMemoryTracker.getInstance slot m)) ms

/-! #### Invariants of the tracker state -/

/-- Byte total of a list of owned chunks. -/
def pairSizes (l : List (StoreId × ChunkInfo)) : Nat :=
  (l.map (fun p => p.2.size)).sum

/-- The `lastUsed` stamps of a list of owned chunks. -/
def pairUsed (l : List (StoreId × ChunkInfo)) : List Nat :=
  l.map (fun p => p.2.lastUsed)

/-- Byte total of all registered chunks. -/
def GlobalMemoryTracker.sumAll (t : GlobalMemoryTracker) : Nat :=
  pairSizes t.allChunksList

/-- The `lastUsed` stamps of all registered chunks. -/
def GlobalMemoryTracker.usedList (t : GlobalMemoryTracker) : List Nat :=
  pairUsed t.allChunksList

/-- Registry well-formedness: store ids are unique (a JS `Map` key
occurs once), chunk indices are unique per store (`addChunk` never
pushes a duplicate index), and the running `totalMemory` equals the sum
of the registered sizes. -/
def GlobalMemoryTracker.WF (t : GlobalMemoryTracker) : Prop :=
  (t.chunks.map Prod.fst).Nodup
    ∧ (∀ p ∈ t.chunks, (p.2.map ChunkInfo.index).Nodup)
    ∧ t.totalMemory = (t.sumAll : Int)

/-- Counter sanity: `lastUsed` stamps are pairwise distinct and never
ahead of the global `accessCounter`. -/
def GlobalMemoryTracker.countersOK (t : GlobalMemoryTracker) : Prop :=
  t.usedList.Nodup ∧ ∀ v ∈ t.usedList, v ≤ t.accessCounter

instance : IsTotal (StoreId × ChunkInfo) (fun a b => a.2.lastUsed ≤ b.2.lastUsed) :=
  ⟨fun _ _ => by exact Nat.le_total _ _⟩

instance : IsTrans (StoreId × ChunkInfo) (fun a b => a.2.lastUsed ≤ b.2.lastUsed) :=
  ⟨fun _ _ _ h h' => by exact Nat.le_trans h h'⟩

/-! #### A concrete two-store run (used to exercise the eviction path)

Budget 100 bytes, shared through the singleton.  Store "A" writes a
60-byte chunk at piece index 0; store "B" then writes a 60-byte chunk
at its own piece index 0, which exceeds the budget and makes B's `put`
evict A's chunk (the least recently used one). -/

def demoTracker : GlobalMemoryTracker := GlobalMemoryTracker.getInstance none 100

def demoStoreA : MemoryLimitedStore := MemoryLimitedStore.create "A"

def demoStoreB : MemoryLimitedStore := MemoryLimitedStore.create "B"

def demoBufA : JsBuffer := List.replicate 60 7

def demoBufB : JsBuffer := List.replicate 60 9

/-- After A's put: A's chunk is resident. -/
def demoStep1 : MemoryLimitedStore × GlobalMemoryTracker :=
  demoStoreA.put demoTracker 0 demoBufA

/-- After B's put: the write would exceed the budget, so B's put evicts
A's chunk from the tracker. -/
def demoStep2 : MemoryLimitedStore × GlobalMemoryTracker :=
  demoStoreB.put demoStep1.2 0 demoBufB

/-- A small well-formed tracker used to witness the invariant
theorems. -/
def demoSmallTracker : GlobalMemoryTracker :=
  { totalMemory := 90
    chunks := [("A", [{ index := 0, size := 60, lastUsed := 1 }]),
               ("B", [{ index := 1, size := 30, lastUsed := 2 }])]
    maxMemory := 100
    accessCounter := 2 }

/-! ## Helper lemmas -/

theorem ByteRange.mk?_eq_some_of (s e : Int) (h0 : 0 ≤ s) (h1 : s ≤ e) :
    ByteRange.mk? s e = some { start := s, endB := e } := by
  unfold ByteRange.mk?
  rw [if_neg (by omega), if_neg (by omega)]

/-- Shared evaluation of `RangeNormalizer.normalize` on the
`start-end` form. -/
theorem norm_startEnd_eq (START END L C : Int) (hL : 0 < L) :
    RangeNormalizer.normalize (.startEnd START END) L C =
      (if min (max END 0) (L - 1) < min (max START 0) (L - 1) then none
       else some { start := min (max START 0) (L - 1), endB := min (max END 0) (L - 1) }) := by
  unfold RangeNormalizer.normalize ByteRange.fromStartEnd
  dsimp only
  by_cases hc : min (max END 0) (L - 1) < min (max START 0) (L - 1)
  · simp only [if_pos hc]
  · have hv : ({ start := min (max START 0) (L - 1), endB := min (max END 0) (L - 1) } :
        ByteRange).isValid L = true := by
      simp [ByteRange.isValid]
      omega
    simp only [if_neg hc]
    rw [ByteRange.mk?_eq_some_of _ _ (by omega) (by omega)]
    dsimp only
    rw [if_pos hv]

/-- Shared evaluation of `RangeNormalizer.normalize` on the suffix
form, away from the degenerate `S = 0`. -/
theorem norm_suffix_eq (L S C : Int) (hL : 0 < L) (hS : 1 ≤ S) :
    RangeNormalizer.normalize (.suffix S) L C =
      some { start := max (L - S) 0, endB := L - 1 } := by
  have h0 : (0 : Int) ≤ max (L - S) 0 := le_max_right _ _
  have h1 : max (L - S) 0 ≤ L - 1 := by omega
  have hv : ({ start := max (L - S) 0, endB := L - 1 } : ByteRange).isValid L = true := by
    simp [ByteRange.isValid]
    omega
  unfold RangeNormalizer.normalize ByteRange.fromSuffix
  dsimp only
  rw [ByteRange.mk?_eq_some_of _ _ h0 h1]
  dsimp only
  rw [if_pos hv]

/-! ## Claims -/

/-- C4 counterexample: the claim includes the boundary case `S = 0`,
but for `L = 10`, `S = 0` the suffix rule computes `start = 10`,
`end = 9` and the `ByteRange` constructor throws (`none`), so
normalization yields no range at all — while `bytes=-0` does survive
parsing, so the input is reachable. -/
theorem C4_counterexample :
    RangeParser.parse "bytes=-0" = .success (.suffix 0)
      ∧ RangeNormalizer.normalize (.suffix 0) 10 1000 = none := by
  constructor
  · decide
  · rfl

/-- C4 (amended): for every content length `L > 0` and suffix `S ≥ 1`,
normalizing `bytes=-S` yields `{max(L-S,0), L-1}`; at `S = 0` the
constructor rejects `start = L > end = L-1` and normalization fails. -/
theorem C4_suffix_range (L S C : Int) (hL : 0 < L) (hS : 1 ≤ S) :
    RangeNormalizer.normalize (.suffix S) L C =
      some { start := max (L - S) 0, endB := L - 1 } :=
  norm_suffix_eq L S C hL hS

/-- C4 witness: `bytes=-100` with `L = 2000` normalizes to
`{1900, 1999}`. -/
theorem C4_suffix_range_witness :
    (0 : Int) < 2000 ∧ (1 : Int) ≤ 100
      ∧ RangeNormalizer.normalize (.suffix 100) 2000 1000 =
          some { start := 1900, endB := 1999 } :=
  ⟨by norm_num, by norm_num,
    (C4_suffix_range 2000 100 1000 (by norm_num) (by norm_num)).trans (by decide)⟩

/-- C5: for `0 ≤ start ≤ end < L` and configured chunk size `C ≥ 1`,
normalizing `bytes=start-end` and applying the chunk limit yields
`{start, end}` when the span fits in `C` and `{start, start+C-1}`
otherwise. -/
theorem C5_chunk_limit (start endB L C : Int) (h0 : 0 ≤ start) (h1 : start ≤ endB)
    (h2 : endB < L) (hC : 1 ≤ C) :
    (RangeNormalizer.normalize (.startEnd start endB) L C).bind
        (fun r => r.applyChunkLimit C L) =
      some (if endB - start + 1 ≤ C then { start := start, endB := endB }
            else { start := start, endB := start + C - 1 }) := by
  have hs : min (max start 0) (L - 1) = start := by omega
  have he : min (max endB 0) (L - 1) = endB := by omega
  rw [norm_startEnd_eq start endB L C (by omega), hs, he, if_neg (by omega)]
  dsimp only [Option.bind]
  unfold ByteRange.applyChunkLimit
  by_cases hle : endB - start + 1 ≤ C
  · have : min endB (min (start + C - 1) (L - 1)) = endB := by omega
    rw [if_pos hle]
    simp only [this]
    exact ByteRange.mk?_eq_some_of _ _ h0 h1
  · have : min endB (min (start + C - 1) (L - 1)) = start + C - 1 := by omega
    rw [if_neg hle]
    simp only [this]
    exact ByteRange.mk?_eq_some_of _ _ h0 (by omega)

/-- C5 witness: `bytes=100-1900`, `L = 2000`, `C = 1000` is truncated
to `{100, 1099}`. -/
theorem C5_chunk_limit_witness :
    (RangeNormalizer.normalize (.startEnd 100 1900) 2000 1000).bind
        (fun r => r.applyChunkLimit 1000 2000) =
      some { start := 100, endB := 1099 } :=
  (C5_chunk_limit 100 1900 2000 1000 (by norm_num) (by norm_num) (by norm_num)
    (by norm_num)).trans (by decide)

/-- C6: normalizing `bytes=START-END` clamps both bounds to
`[0, L-1]` and fails exactly when the clamped end is below the clamped
start. -/
theorem C6_clamp_fail (START END L C : Int) (hL : 0 < L) :
    RangeNormalizer.normalize (.startEnd START END) L C =
      (if min (max END 0) (L - 1) < min (max START 0) (L - 1) then none
       else some { start := min (max START 0) (L - 1), endB := min (max END 0) (L - 1) }) :=
  norm_startEnd_eq START END L C hL

/-- C6 witness: `bytes=1800-100` with `L = 2000` fails (416). -/
theorem C6_clamp_fail_witness :
    (0 : Int) < 2000
      ∧ RangeNormalizer.normalize (.startEnd 1800 100) 2000 1000 = none :=
  ⟨by norm_num, (C6_clamp_fail 1800 100 2000 1000 (by norm_num)).trans (by decide)⟩

/-- C9: once a range request passes validation (`start < fileSize`),
the response is a 206 for the normalized range whatever the outcome of
the bounded piece wait was; a timeout only sets the logged warning. -/
theorem C9_timeout_does_not_fail (start requestedEnd fileSize chunkSize : Int)
    (h : start < fileSize) (piecesReady : Bool) :
    (handleRangeRequest start requestedEnd fileSize chunkSize piecesReady).response =
        .status206 start (min requestedEnd (min (start + chunkSize - 1) (fileSize - 1)))
      ∧ (handleRangeRequest start requestedEnd fileSize chunkSize piecesReady).response =
          (handleRangeRequest start requestedEnd fileSize chunkSize true).response
      ∧ (handleRangeRequest start requestedEnd fileSize chunkSize false).warnedTimeout = true := by
  unfold handleRangeRequest
  rw [if_neg (by omega)]
  refine ⟨rfl, by rw [if_neg (by omega)], ?_⟩
  rw [if_neg (by omega)]
  rfl

/-- C9 witness: `bytes=500-` (`requestedEnd` defaulted to 1999) with
`L = 2000`, `C = 1000`, timeout (`piecesReady = false`) still answers
206 for `{500, 1499}`. -/
theorem C9_timeout_does_not_fail_witness :
    (500 : Int) < 2000
      ∧ (handleRangeRequest 500 1999 2000 1000 false).response = .status206 500 1499 :=
  ⟨by norm_num,
    (C9_timeout_does_not_fail 500 1999 2000 1000 (by norm_num) false).1.trans (by decide)⟩

/-! #### `maxMemory` is never written after construction -/

theorem maxMemory_removeChunk (t : GlobalMemoryTracker) (sid : StoreId) (i : Nat) :
    (t.removeChunk sid i).maxMemory = t.maxMemory := by
  unfold GlobalMemoryTracker.removeChunk
  split
  · rfl
  · split
    · rfl
    · rfl

theorem maxMemory_accessChunk (t : GlobalMemoryTracker) (sid : StoreId) (i : Nat) :
    (t.accessChunk sid i).maxMemory = t.maxMemory := by
  unfold GlobalMemoryTracker.accessChunk
  split
  · rfl
  · split
    · rfl
    · rfl

theorem maxMemory_removeStore (t : GlobalMemoryTracker) (sid : StoreId) :
    (t.removeStore sid).maxMemory = t.maxMemory := by
  unfold GlobalMemoryTracker.removeStore
  split
  · rfl
  · rfl

theorem maxMemory_removeOldestStep (t : GlobalMemoryTracker) (sid : StoreId) (c : ChunkInfo) :
    (t.removeOldestStep sid c).maxMemory = t.maxMemory := by
  unfold GlobalMemoryTracker.removeOldestStep
  split
  · rfl
  · split
    · rfl
    · rfl

theorem maxMemory_evictIfNeededGo (n : Nat) :
    ∀ t : GlobalMemoryTracker, (evictIfNeededGo n t).maxMemory = t.maxMemory := by
  induction n with
  | zero => intro t; rfl
  | succ n ih =>
    intro t
    unfold evictIfNeededGo
    split
    · split
      · rfl
      · rw [ih, maxMemory_removeOldestStep]
    · rfl

theorem maxMemory_evictIfNeeded (t : GlobalMemoryTracker) :
    t.evictIfNeeded.maxMemory = t.maxMemory :=
  maxMemory_evictIfNeededGo _ t

theorem maxMemory_addChunk (t : GlobalMemoryTracker) (sid : StoreId) (i sz : Nat) :
    (t.addChunk sid i sz).maxMemory = t.maxMemory := by
  unfold GlobalMemoryTracker.addChunk
  rw [maxMemory_evictIfNeeded]
  split
  · rfl
  · rfl

theorem maxMemory_removeFold (ts : List (StoreId × ChunkInfo)) :
    ∀ t : GlobalMemoryTracker,
      (ts.foldl (fun tr p => tr.removeChunk p.1 p.2.index) t).maxMemory = t.maxMemory := by
  induction ts with
  | nil => intro t; rfl
  | cons x ts ih =>
    intro t
    rw [List.foldl_cons, ih, maxMemory_removeChunk]

theorem maxMemory_evictChunks (s : MemoryLimitedStore) (t : GlobalMemoryTracker) (r : Nat) :
    (s.evictChunks t r).2.maxMemory = t.maxMemory := by
  unfold MemoryLimitedStore.evictChunks
  exact maxMemory_removeFold _ t

theorem maxMemory_put (s : MemoryLimitedStore) (t : GlobalMemoryTracker) (i : Nat)
    (buf : JsBuffer) : (s.put t i buf).2.maxMemory = t.maxMemory := by
  unfold MemoryLimitedStore.put
  dsimp only
  split
  · rw [maxMemory_addChunk, maxMemory_evictChunks]
  · rw [maxMemory_addChunk]

theorem maxMemory_get (s : MemoryLimitedStore) (t : GlobalMemoryTracker) (i : Nat) :
    (s.get t i).2.maxMemory = t.maxMemory := by
  unfold MemoryLimitedStore.get
  split
  · rfl
  · dsimp only
    split
    · exact maxMemory_accessChunk t s.storeId i
    · exact maxMemory_accessChunk t s.storeId i

/-- C10: the tracker singleton is fixed by the first `getInstance`
call: later calls return it and ignore their argument, a sequence of
later store constructions leaves the slot at the first tracker, and no
tracker or store operation ever changes `getMaxMemory`. -/
theorem C10_singleton_budget :
    (∀ (t : GlobalMemoryTracker) (m : Int), GlobalMemoryTracker.getInstance (some t) m = t)
      ∧ (∀ m : Int, (GlobalMemoryTracker.getInstance none m).getMaxMemory = m)
      ∧ (∀ (m0 : Int) (ms : List Int),
          constructAll (some (GlobalMemoryTracker.getInstance none m0)) ms =
            some (GlobalMemoryTracker.create m0))
      ∧ (∀ (s : MemoryLimitedStore) (t : GlobalMemoryTracker) (i : Nat) (buf : JsBuffer),
          (s.put t i buf).2.getMaxMemory = t.getMaxMemory)
      ∧ (∀ (s : MemoryLimitedStore) (t : GlobalMemoryTracker) (i : Nat),
          (s.get t i).2.getMaxMemory = t.getMaxMemory)
      ∧ (∀ (t : GlobalMemoryTracker) (sid : StoreId) (i : Nat),
          (t.removeChunk sid i).getMaxMemory = t.getMaxMemory)
      ∧ (∀ (t : GlobalMemoryTracker) (sid : StoreId),
          (t.removeStore sid).getMaxMemory = t.getMaxMemory) := by
  refine ⟨fun t m => rfl, fun m => rfl, fun m0 ms => ?_, maxMemory_put, maxMemory_get,
    maxMemory_removeChunk, maxMemory_removeStore⟩
  induction ms with
  | nil => rfl
  | cons m ms ih => exact ih

/-- C1: the code contradicts the spec's central invariant and its own
comments.  Store "A" writes 60 bytes at index 0 under a 100-byte shared
budget; store "B"'s subsequent 60-byte `put` evicts A's chunk from the
tracker (first conjunct: only B's chunk remains registered), but
`evictChunks` marks evicted indices only in the *writer's*
`evictedChunks` (second conjunct: A's marker set stays empty) — the
"notify store" step promised by the comment in `evictIfNeeded` does not
exist.  A's next `get(0)` therefore serves the evicted chunk's stale
bytes from the underlying backend instead of the required
`notFound` error. -/
theorem C1_eviction_miss_not_reported :
    demoStep2.2.allChunksList = [("B", { index := 0, size := 60, lastUsed := 2 })]
      ∧ demoStep1.1.evictedChunks = []
      ∧ (demoStep1.1.get demoStep2.2 0).1 = GetResult.found demoBufA
      ∧ (demoStep1.1.get demoStep2.2 0).1 ≠ GetResult.notFound := by
  refine ⟨by decide, by decide, by decide, by decide⟩

/-- What `parseParts` guarantees about its inputs on success: every
nonempty part carries a leading decimal number (`parseInt`-parsable),
and a parsed suffix is nonnegative. -/
theorem parseParts_success (a b : List Char) (v : ParsedRange)
    (h : RangeParser.parseParts a b = .success v) :
    (a ≠ [] → (jsParseInt a).isSome = true)
      ∧ (b ≠ [] → (jsParseInt b).isSome = true)
      ∧ (∀ s, v = .suffix s → 0 ≤ s) := by
  unfold RangeParser.parseParts at h
  split_ifs at h with h1 h2 h3
  · rcases hj : jsParseInt b with _ | s <;> rw [hj] at h <;> dsimp only at h
    · exact absurd h (by simp)
    · split_ifs at h with hneg
      refine ⟨fun ha => absurd h1.1 ha, fun _ => by simp [hj], ?_⟩
      injection h with hv
      intro s' hs'
      rw [← hv] at hs'
      injection hs' with hss
      omega
  · rcases hj : jsParseInt a with _ | s <;> rw [hj] at h <;> dsimp only at h
    · exact absurd h (by simp)
    · injection h with hv
      refine ⟨fun _ => by simp [hj], fun hb => absurd h2.2 hb, ?_⟩
      intro s' hs'
      rw [← hv] at hs'
      exact absurd hs' (by simp)
  · rcases hja : jsParseInt a with _ | sa <;> rcases hjb : jsParseInt b with _ | sb <;>
      rw [hja, hjb] at h <;> dsimp only at h
    · exact absurd h (by simp)
    · exact absurd h (by simp)
    · exact absurd h (by simp)
    · injection h with hv
      refine ⟨fun _ => by simp [hja], fun _ => by simp [hjb], ?_⟩
      intro s' hs'
      rw [← hv] at hs'
      exact absurd hs' (by simp)

/-- C7 counterexample: the start component `12abc` contains characters
that are not part of a decimal number, yet parsing succeeds —
`parseInt` reads the numeric prefix `12` and ignores the rest. -/
theorem C7_counterexample :
    RangeParser.parse "bytes=12abc-100" = .success (.startEnd 12 100)
      ∧ rangeComponents "bytes=12abc-100" = ["12abc".data, "100".data]
      ∧ ("12abc".data.all Char.isDigit) = false := by
  refine ⟨by decide, by decide, by decide⟩

/-- Core of C7's amended statement, over the already-stripped header
remainder `rv`. -/
theorem parseList_numeric (rv : List Char) (v : ParsedRange)
    (h : (if rv = [] then RangeParseResult.failure .invalidFormat
          else if rv.contains ',' then RangeParseResult.failure .multipleRanges
          else
            match splitOnChar '-' rv with
            | [startRaw, endRaw] => RangeParser.parseParts (jsTrim startRaw) (jsTrim endRaw)
            | _ => RangeParseResult.failure .invalidFormat) = .success v) :
    (∀ c ∈ (splitOnChar '-' rv).map jsTrim, c ≠ [] → (jsParseInt c).isSome = true)
      ∧ (∀ s, v = .suffix s → 0 ≤ s) := by
  split_ifs at h with h1 h2
  rcases hsp : splitOnChar '-' rv with _ | ⟨a, _ | ⟨b, _ | ⟨c, l⟩⟩⟩ <;> rw [hsp] at h <;>
    dsimp only at h
  · exact absurd h (by simp)
  · exact absurd h (by simp)
  · obtain ⟨ha, hb, hs⟩ := parseParts_success (jsTrim a) (jsTrim b) v h
    refine ⟨?_, hs⟩
    intro c hc
    simp only [List.map_cons, List.map_nil, List.mem_cons, List.not_mem_nil,
      or_false] at hc
    rcases hc with rfl | rfl
    · exact ha
    · exact hb
  · exact absurd h (by simp)

/-- C7 (amended): parsing fails on a component without a leading
(optionally signed) decimal number, and on a negative parsed suffix;
equivalently, whenever parsing succeeds, every nonempty trimmed
component is `parseInt`-parsable (a component may still contain
trailing non-numeric characters, which `parseInt` ignores) and a parsed
suffix is nonnegative. -/
theorem C7_parse_numeric (range : String) (v : ParsedRange)
    (h : RangeParser.parse range = .success v) :
    (∀ c ∈ rangeComponents range, c ≠ [] → (jsParseInt c).isSome = true)
      ∧ (∀ s, v = .suffix s → 0 ≤ s) := by
  unfold RangeParser.parse at h
  unfold rangeComponents
  exact parseList_numeric _ v h

/-- C7 witness: `bytes=-100` parses to a suffix, which the theorem
shows is nonnegative. -/
theorem C7_parse_numeric_witness :
    RangeParser.parse "bytes=-100" = .success (.suffix 100) ∧ (0 : Int) ≤ 100 :=
  ⟨by decide, (C7_parse_numeric "bytes=-100" (.suffix 100) (by decide)).2 100 rfl⟩

/-! #### Tracked-map lemmas for select/deselect -/

theorem pmapGet_set_self (m : PMap) (i : Int) (v : PrioritizedPiece) :
    pmapGet (pmapSet m i v) i = some v := by
  induction m with
  | nil => simp [pmapSet, pmapGet]
  | cons kv rest ih =>
    obtain ⟨k, w⟩ := kv
    by_cases hk : k = i
    · simp [pmapSet, pmapGet, hk]
    · simp [pmapSet, pmapGet, hk, ih]

theorem pmapGet_set_ne (m : PMap) (i j : Int) (v : PrioritizedPiece) (hij : j ≠ i) :
    pmapGet (pmapSet m j v) i = pmapGet m i := by
  induction m with
  | nil => simp [pmapSet, pmapGet, hij]
  | cons kv rest ih =>
    obtain ⟨k, w⟩ := kv
    by_cases hk : k = j
    · subst hk
      simp [pmapSet, pmapGet, hij]
    · simp only [pmapSet, if_neg hk, pmapGet]
      by_cases hki : k = i
      · simp [hki]
      · simp [hki, ih]

theorem pmapSet_same (m : PMap) (i : Int) (v : PrioritizedPiece)
    (h : pmapGet m i = some v) : pmapSet m i v = m := by
  induction m with
  | nil => simp [pmapGet] at h
  | cons kv rest ih =>
    obtain ⟨k, w⟩ := kv
    by_cases hk : k = i
    · subst hk
      have h' : w = v := by
        have hh : (if k = k then some w else pmapGet rest k) = some v := h
        simpa using hh
      simp [pmapSet, h']
    · simp only [pmapGet, if_neg hk] at h
      simp [pmapSet, hk, ih h]

theorem pmapGet_eq_none_of_not_mem (m : PMap) (i : Int)
    (h : i ∉ m.map Prod.fst) : pmapGet m i = none := by
  induction m with
  | nil => rfl
  | cons kv rest ih =>
    obtain ⟨k, w⟩ := kv
    simp only [List.map_cons, List.mem_cons, not_or] at h
    simp only [pmapGet]
    rw [if_neg (fun hki => h.1 hki.symm)]
    exact ih h.2

theorem pmapDelete_keys_sublist (m : PMap) (j : Int) :
    ((pmapDelete m j).map Prod.fst).Sublist (m.map Prod.fst) := by
  induction m with
  | nil => simp [pmapDelete]
  | cons kv rest ih =>
    obtain ⟨k, w⟩ := kv
    by_cases hk : k = j
    · simp only [pmapDelete, if_pos hk, List.map_cons]
      exact (List.sublist_cons_self _ _)
    · simp only [pmapDelete, if_neg hk, List.map_cons]
      exact List.Sublist.cons₂ _ ih

theorem pmapGet_delete_self (m : PMap) (i : Int) (hk : (m.map Prod.fst).Nodup) :
    pmapGet (pmapDelete m i) i = none := by
  induction m with
  | nil => rfl
  | cons kv rest ih =>
    obtain ⟨k, w⟩ := kv
    simp only [List.map_cons, List.nodup_cons] at hk
    by_cases hki : k = i
    · subst hki
      simp only [pmapDelete, if_pos rfl]
      exact pmapGet_eq_none_of_not_mem rest k hk.1
    · simp only [pmapDelete, if_neg hki, pmapGet, if_neg hki]
      exact ih hk.2

theorem pmapGet_delete_ne (m : PMap) (i j : Int) (hij : j ≠ i) :
    pmapGet (pmapDelete m j) i = pmapGet m i := by
  induction m with
  | nil => rfl
  | cons kv rest ih =>
    obtain ⟨k, w⟩ := kv
    by_cases hk : k = j
    · subst hk
      simp [pmapDelete, pmapGet, hij]
    · simp only [pmapDelete, if_neg hk, pmapGet]
      by_cases hki : k = i
      · simp [hki]
      · simp [hki, ih]

theorem selectStep_get_ne (level now : Nat) (m : PMap) (j i : Int) (hij : j ≠ i) :
    pmapGet (selectStep level now m j) i = pmapGet m i := by
  unfold selectStep
  rcases pmapGet m j with _ | e <;> dsimp only
  · exact pmapGet_set_ne m i j _ hij
  · by_cases hle : level ≥ e.priority
    · rw [if_pos hle]
      exact pmapGet_set_ne m i j _ hij
    · rw [if_neg hle]

theorem selectStep_establishes (level now : Nat) (m : PMap) (i : Int) :
    selInv level (selectStep level now m i) i := by
  unfold selectStep selInv
  rcases hg : pmapGet m i with _ | e
  · exact ⟨_, pmapGet_set_self m i _, Or.inr ⟨rfl, rfl⟩⟩
  · dsimp only
    by_cases hle : level ≥ e.priority
    · rw [if_pos hle]
      exact ⟨_, pmapGet_set_self m i _, Or.inr ⟨rfl, rfl⟩⟩
    · rw [if_neg hle]
      exact ⟨e, hg, Or.inl (by omega)⟩

theorem selectStep_preserves (level now : Nat) (m : PMap) (i j : Int)
    (h : selInv level m i) : selInv level (selectStep level now m j) i := by
  by_cases hij : j = i
  · subst hij
    obtain ⟨e, hg, hor⟩ := h
    unfold selectStep
    rw [hg]
    dsimp only
    rcases hor with hlt | ⟨hpi, hpr⟩
    · rw [if_neg (by omega)]
      exact ⟨e, hg, Or.inl hlt⟩
    · rw [if_pos (by omega)]
      exact ⟨_, pmapGet_set_self m j _, Or.inr ⟨rfl, rfl⟩⟩
  · unfold selInv
    rw [selectStep_get_ne level now m j i hij]
    exact h

theorem selectStep_identity (level now : Nat) (m : PMap) (i : Int)
    (h : selInv level m i) : selectStep level now m i = m := by
  obtain ⟨e, hg, hor⟩ := h
  unfold selectStep
  rw [hg]
  dsimp only
  rcases hor with hlt | ⟨hpi, hpr⟩
  · rw [if_neg (by omega)]
  · rw [if_pos (by omega)]
    have he : ({ pieceIndex := i, priority := level, selectedAt := e.selectedAt } :
        PrioritizedPiece) = e := by
      obtain ⟨pi, pr, sel⟩ := e
      simp only at hpi hpr
      simp [hpi, hpr]
    rw [he]
    exact pmapSet_same m i e hg

theorem selectFold_preserves (level now : Nat) (l : List Int) :
    ∀ (m : PMap) (i : Int), selInv level m i →
      selInv level (l.foldl (selectStep level now) m) i := by
  induction l with
  | nil => intro m i h; exact h
  | cons j t ih =>
    intro m i h
    exact ih (selectStep level now m j) i (selectStep_preserves level now m i j h)

theorem selectFold_inv (level now : Nat) (l : List Int) :
    ∀ (m : PMap) (i : Int), i ∈ l → selInv level (l.foldl (selectStep level now) m) i := by
  induction l with
  | nil => intro m i h; exact absurd h (List.not_mem_nil i)
  | cons j t ih =>
    intro m i h
    rcases List.mem_cons.mp h with rfl | ht
    · exact selectFold_preserves level now t _ i (selectStep_establishes level now m i)
    · exact ih _ i ht

theorem selectFold_id (level now : Nat) (l : List Int) :
    ∀ m : PMap, (∀ i ∈ l, selInv level m i) → l.foldl (selectStep level now) m = m := by
  induction l with
  | nil => intro m _; rfl
  | cons j t ih =>
    intro m h
    rw [List.foldl_cons, selectStep_identity level now m j (h j (List.mem_cons_self j t))]
    exact ih m (fun i hi => h i (List.mem_cons_of_mem j hi))

theorem deselectStep_get_ne (level : Nat) (m : PMap) (j i : Int) (hij : j ≠ i) :
    pmapGet (deselectStep level m j) i = pmapGet m i := by
  unfold deselectStep
  rcases pmapGet m j with _ | e
  · rfl
  · dsimp only
    by_cases hp : e.priority = level
    · rw [if_pos hp]
      exact pmapGet_delete_ne m i j hij
    · rw [if_neg hp]

theorem deselectStep_get_self (level : Nat) (m : PMap) (i : Int)
    (hk : (m.map Prod.fst).Nodup) :
    pmapGet (deselectStep level m i) i =
      (match pmapGet m i with
       | some e => if e.priority = level then none else some e
       | none => none) := by
  unfold deselectStep
  rcases hg : pmapGet m i with _ | e
  · exact hg
  · dsimp only
    by_cases hp : e.priority = level
    · rw [if_pos hp, if_pos hp]
      exact pmapGet_delete_self m i hk
    · rw [if_neg hp, if_neg hp]
      exact hg

theorem deselectStep_keys_nodup (level : Nat) (m : PMap) (j : Int)
    (hk : (m.map Prod.fst).Nodup) :
    (((deselectStep level m j).map Prod.fst)).Nodup := by
  unfold deselectStep
  rcases pmapGet m j with _ | e
  · exact hk
  · dsimp only
    by_cases hp : e.priority = level
    · rw [if_pos hp]
      exact hk.sublist (pmapDelete_keys_sublist m j)
    · rw [if_neg hp]
      exact hk

theorem deselectFold (level : Nat) (l : List Int) :
    ∀ m : PMap, (m.map Prod.fst).Nodup → ∀ i : Int,
      pmapGet (l.foldl (deselectStep level) m) i =
        (match pmapGet m i with
         | none => none
         | some e => if i ∈ l ∧ e.priority = level then none else some e) := by
  induction l with
  | nil =>
    intro m _ i
    rw [List.foldl_nil]
    rcases hg : pmapGet m i with _ | e
    · rfl
    · simp
  | cons j t ih =>
    intro m hk i
    rw [List.foldl_cons, ih (deselectStep level m j) (deselectStep_keys_nodup level m j hk) i]
    by_cases hij : i = j
    · subst hij
      rw [deselectStep_get_self level m i hk]
      rcases hg : pmapGet m i with _ | e
      · rfl
      · dsimp only
        by_cases hp : e.priority = level <;> simp [hp]
    · rw [deselectStep_get_ne level m j i (fun h => hij h.symm)]
      rcases hg : pmapGet m i with _ | e
      · rfl
      · dsimp only
        have hmem : (i ∈ j :: t ∧ e.priority = level) ↔ (i ∈ t ∧ e.priority = level) := by
          simp [List.mem_cons, hij]
        simp only [hmem]

theorem mem_intRangeList (s e i : Int) : i ∈ intRangeList s e ↔ s ≤ i ∧ i ≤ e := by
  unfold intRangeList
  simp only [List.mem_map, List.mem_range]
  constructor
  · rintro ⟨k, hk, rfl⟩
    omega
  · rintro ⟨h1, h2⟩
    refine ⟨(i - s).toNat, ?_, ?_⟩ <;> omega

/-- C8: selecting the same piece range twice at the same priority
leaves the tracked map unchanged (second conjunct of the proof of
idempotence holds for any two `now` timestamps), and deselecting
removes a tracked entry for a piece in `[start, end]` iff its tracked
priority equals the (normalized) deselected priority exactly. -/
theorem C8_select_idempotent_deselect_exact (m : PMap) (s e : Int) (p : JsPriority)
    (t1 t2 : Nat) (hk : (m.map Prod.fst).Nodup) :
    extendedSelect (extendedSelect m s e p t1) s e p t2 = extendedSelect m s e p t1
      ∧ ∀ i : Int, pmapGet (extendedDeselect m s e p) i =
          (match pmapGet m i with
           | none => none
           | some en =>
             if (s ≤ i ∧ i ≤ e) ∧ en.priority = normalizePriority p then none else some en) := by
  constructor
  · unfold extendedSelect
    by_cases hl : normalizePriority p > 0
    · simp only [if_pos hl]
      exact selectFold_id _ t2 _ _ (fun i hi => selectFold_inv _ t1 _ m i hi)
    · simp only [if_neg hl]
  · intro i
    unfold extendedDeselect
    rw [deselectFold _ _ m hk i]
    rcases hg : pmapGet m i with _ | en
    · rfl
    · dsimp only
      simp only [mem_intRangeList]

/-- C8 witness: a concrete map with entries at priorities 3 and 2;
select is idempotent and `deselect(0, 2, 3)` removes exactly the
priority-3 entry. -/
theorem C8_select_idempotent_deselect_exact_witness :
    (extendedSelect (extendedSelect
        [((0 : Int), { pieceIndex := 0, priority := 3, selectedAt := 1 }),
         ((1 : Int), { pieceIndex := 1, priority := 2, selectedAt := 1 })] 0 2 (.num 3) 5)
        0 2 (.num 3) 9 =
      extendedSelect
        [((0 : Int), { pieceIndex := 0, priority := 3, selectedAt := 1 }),
         ((1 : Int), { pieceIndex := 1, priority := 2, selectedAt := 1 })] 0 2 (.num 3) 5)
      ∧ pmapGet (extendedDeselect
          [((0 : Int), { pieceIndex := 0, priority := 3, selectedAt := 1 }),
           ((1 : Int), { pieceIndex := 1, priority := 2, selectedAt := 1 })] 0 2 (.num 3)) 0 =
        none
      ∧ pmapGet (extendedDeselect
          [((0 : Int), { pieceIndex := 0, priority := 3, selectedAt := 1 }),
           ((1 : Int), { pieceIndex := 1, priority := 2, selectedAt := 1 })] 0 2 (.num 3)) 1 =
        some { pieceIndex := 1, priority := 2, selectedAt := 1 } :=
  ⟨(C8_select_idempotent_deselect_exact _ 0 2 (.num 3) 5 9 (by decide)).1,
    ((C8_select_idempotent_deselect_exact _ 0 2 (.num 3) 5 9 (by decide)).2 0).trans (by decide),
    ((C8_select_idempotent_deselect_exact _ 0 2 (.num 3) 5 9 (by decide)).2 1).trans (by decide)⟩

/-! #### Registry lemmas for the memory tracker -/

theorem flatReg_nil : flatReg [] = [] := rfl

theorem flatReg_cons (k : StoreId) (w : List ChunkInfo) (rest : ChunkRegistry) :
    flatReg ((k, w) :: rest) = w.map (fun c => (k, c)) ++ flatReg rest := by
  simp [flatReg]

theorem regLookup_mem (m : ChunkRegistry) (sid : StoreId) (cs : List ChunkInfo)
    (h : regLookup m sid = some cs) : (sid, cs) ∈ m := by
  induction m with
  | nil => simp [regLookup] at h
  | cons kv rest ih =>
    obtain ⟨k, w⟩ := kv
    by_cases hk : k = sid
    · subst hk
      have hw : w = cs := by
        have hh : (if k = k then some w else regLookup rest k) = some cs := h
        simpa using hh
      subst hw
      exact List.mem_cons_self _ _
    · simp only [regLookup, if_neg hk] at h
      exact List.mem_cons_of_mem _ (ih h)

theorem regLookup_none_not_mem (m : ChunkRegistry) (sid : StoreId)
    (h : regLookup m sid = none) : sid ∉ m.map Prod.fst := by
  induction m with
  | nil => simp
  | cons kv rest ih =>
    obtain ⟨k, w⟩ := kv
    by_cases hk : k = sid
    · subst hk
      simp [regLookup] at h
    · simp only [regLookup, if_neg hk] at h
      simp only [List.map_cons, List.mem_cons, not_or]
      exact ⟨fun he => hk he.symm, ih h⟩

/-- Decomposition of the registry around a present key: how `flatReg`
changes under `regSet` and `regDelete` at that key. -/
theorem regLookup_decomp (m : ChunkRegistry) (sid : StoreId) (cs : List ChunkInfo)
    (h : regLookup m sid = some cs) :
    ∃ A B, flatReg m = A ++ cs.map (fun c => (sid, c)) ++ B
      ∧ (∀ v, flatReg (regSet m sid v) = A ++ v.map (fun c => (sid, c)) ++ B)
      ∧ flatReg (regDelete m sid) = A ++ B := by
  induction m with
  | nil => simp [regLookup] at h
  | cons kv rest ih =>
    obtain ⟨k, w⟩ := kv
    by_cases hk : k = sid
    · subst hk
      have hw : w = cs := by
        have hh : (if k = k then some w else regLookup rest k) = some cs := h
        simpa using hh
      subst hw
      refine ⟨[], flatReg rest, by simp [flatReg_cons], fun v => ?_, ?_⟩
      · simp only [regSet, if_pos rfl]
        simp [flatReg_cons]
      · simp only [regDelete, if_pos rfl]
        simp
    · simp only [regLookup, if_neg hk] at h
      obtain ⟨A, B, h1, h2, h3⟩ := ih h
      refine ⟨w.map (fun c => (k, c)) ++ A, B, ?_, fun v => ?_, ?_⟩
      · rw [flatReg_cons, h1]
        simp
      · simp only [regSet, if_neg hk]
        rw [flatReg_cons, h2 v]
        simp
      · simp only [regDelete, if_neg hk]
        rw [flatReg_cons, h3]
        simp

theorem flatReg_regSet_new (m : ChunkRegistry) (sid : StoreId) (v : List ChunkInfo)
    (h : regLookup m sid = none) :
    flatReg (regSet m sid v) = flatReg m ++ v.map (fun c => (sid, c)) := by
  induction m with
  | nil => simp [regSet, flatReg_cons, flatReg_nil]
  | cons kv rest ih =>
    obtain ⟨k, w⟩ := kv
    by_cases hk : k = sid
    · subst hk
      simp [regLookup] at h
    · simp only [regLookup, if_neg hk] at h
      simp only [regSet, if_neg hk]
      rw [flatReg_cons, flatReg_cons, ih h]
      simp

theorem keys_regSet_some (m : ChunkRegistry) (sid : StoreId) (cs v : List ChunkInfo)
    (h : regLookup m sid = some cs) :
    (regSet m sid v).map Prod.fst = m.map Prod.fst := by
  induction m with
  | nil => simp [regLookup] at h
  | cons kv rest ih =>
    obtain ⟨k, w⟩ := kv
    by_cases hk : k = sid
    · subst hk
      simp [regSet]
    · simp only [regLookup, if_neg hk] at h
      simp [regSet, if_neg hk, ih h]

theorem keys_regSet_none (m : ChunkRegistry) (sid : StoreId) (v : List ChunkInfo)
    (h : regLookup m sid = none) :
    (regSet m sid v).map Prod.fst = m.map Prod.fst ++ [sid] := by
  induction m with
  | nil => simp [regSet]
  | cons kv rest ih =>
    obtain ⟨k, w⟩ := kv
    by_cases hk : k = sid
    · subst hk
      simp [regLookup] at h
    · simp only [regLookup, if_neg hk] at h
      simp [regSet, if_neg hk, ih h]

theorem keys_regDelete_sublist (m : ChunkRegistry) (sid : StoreId) :
    ((regDelete m sid).map Prod.fst).Sublist (m.map Prod.fst) := by
  induction m with
  | nil => simp [regDelete]
  | cons kv rest ih =>
    obtain ⟨k, w⟩ := kv
    by_cases hk : k = sid
    · simp only [regDelete, if_pos hk, List.map_cons]
      exact List.sublist_cons_self _ _
    · simp only [regDelete, if_neg hk, List.map_cons]
      exact List.Sublist.cons₂ _ ih

theorem mem_regSet (m : ChunkRegistry) (sid : StoreId) (v : List ChunkInfo)
    (p : StoreId × List ChunkInfo) (h : p ∈ regSet m sid v) : p ∈ m ∨ p = (sid, v) := by
  induction m with
  | nil =>
    simp only [regSet, List.mem_singleton] at h
    exact Or.inr h
  | cons kv rest ih =>
    obtain ⟨k, w⟩ := kv
    by_cases hk : k = sid
    · simp only [regSet, if_pos hk, List.mem_cons] at h
      rcases h with rfl | h
      · exact Or.inr rfl
      · exact Or.inl (List.mem_cons_of_mem _ h)
    · simp only [regSet, if_neg hk, List.mem_cons] at h
      rcases h with rfl | h
      · exact Or.inl (List.mem_cons_self _ _)
      · rcases ih h with h' | h'
        · exact Or.inl (List.mem_cons_of_mem _ h')
        · exact Or.inr h'

theorem mem_regDelete (m : ChunkRegistry) (sid : StoreId) (p : StoreId × List ChunkInfo)
    (h : p ∈ regDelete m sid) : p ∈ m := by
  induction m with
  | nil => simp [regDelete] at h
  | cons kv rest ih =>
    obtain ⟨k, w⟩ := kv
    by_cases hk : k = sid
    · simp only [regDelete, if_pos hk] at h
      exact List.mem_cons_of_mem _ h
    · simp only [regDelete, if_neg hk, List.mem_cons] at h
      rcases h with rfl | h
      · exact List.mem_cons_self _ _
      · exact List.mem_cons_of_mem _ (ih h)

/-! #### Chunk-list lemmas -/

theorem pairSizes_append (a b : List (StoreId × ChunkInfo)) :
    pairSizes (a ++ b) = pairSizes a + pairSizes b := by
  simp [pairSizes]

theorem pairSizes_mapStore (sid : StoreId) (cs : List ChunkInfo) :
    pairSizes (cs.map (fun c => (sid, c))) = sumSizes cs := by
  simp [pairSizes, sumSizes, List.map_map]
  rfl

theorem pairUsed_append (a b : List (StoreId × ChunkInfo)) :
    pairUsed (a ++ b) = pairUsed a ++ pairUsed b := by
  simp [pairUsed]

theorem pairUsed_mapStore (sid : StoreId) (cs : List ChunkInfo) :
    pairUsed (cs.map (fun c => (sid, c))) = cs.map ChunkInfo.lastUsed := by
  simp [pairUsed, List.map_map]

theorem sumSizes_append (a b : List ChunkInfo) :
    sumSizes (a ++ b) = sumSizes a + sumSizes b := by
  simp [sumSizes]

theorem sumSizes_cons (c : ChunkInfo) (cs : List ChunkInfo) :
    sumSizes (c :: cs) = c.size + sumSizes cs := by
  simp [sumSizes]

theorem removeFirstIndex_some (cs : List ChunkInfo) (i : Nat) (c : ChunkInfo)
    (rest : List ChunkInfo) (h : removeFirstIndex cs i = some (c, rest)) :
    ∃ P Q, cs = P ++ c :: Q ∧ rest = P ++ Q ∧ c.index = i := by
  induction cs generalizing rest with
  | nil => simp [removeFirstIndex] at h
  | cons d ds ih =>
    by_cases hd : d.index = i
    · unfold removeFirstIndex at h
      rw [if_pos hd] at h
      simp only [Option.some.injEq, Prod.mk.injEq] at h
      obtain ⟨rfl, rfl⟩ := h
      exact ⟨[], ds, rfl, rfl, hd⟩
    · unfold removeFirstIndex at h
      rw [if_neg hd] at h
      rcases hrec : removeFirstIndex ds i with _ | ⟨r, rest'⟩
      · rw [hrec] at h
        simp at h
      · rw [hrec] at h
        simp only [Option.map_some', Option.some.injEq, Prod.mk.injEq] at h
        obtain ⟨rfl, rfl⟩ := h
        obtain ⟨P, Q, h1, h2, h3⟩ := ih rest' hrec
        exact ⟨d :: P, Q, by rw [h1]; rfl, by rw [h2]; rfl, h3⟩

theorem removeFirstIndex_of_mem_nodup (cs : List ChunkInfo) (c : ChunkInfo)
    (hnd : (cs.map ChunkInfo.index).Nodup) (hc : c ∈ cs) :
    ∃ P Q, cs = P ++ c :: Q ∧ removeFirstIndex cs c.index = some (c, P ++ Q) := by
  induction cs with
  | nil => simp at hc
  | cons d ds ih =>
    simp only [List.map_cons, List.nodup_cons] at hnd
    by_cases hd : d.index = c.index
    · have hdc : d = c := by
        rcases List.mem_cons.mp hc with rfl | htail
        · rfl
        · exact absurd (hd ▸ List.mem_map_of_mem ChunkInfo.index htail) hnd.1
      subst hdc
      exact ⟨[], ds, rfl, by unfold removeFirstIndex; rw [if_pos rfl]; rfl⟩
    · have htail : c ∈ ds := by
        rcases List.mem_cons.mp hc with rfl | htail
        · exact absurd rfl hd
        · exact htail
      obtain ⟨P, Q, h1, h2⟩ := ih hnd.2 htail
      refine ⟨d :: P, Q, by rw [h1]; rfl, ?_⟩
      unfold removeFirstIndex
      rw [if_neg hd, h2]
      rfl

theorem find?_index_decomp (cs : List ChunkInfo) (i : Nat) (ex : ChunkInfo)
    (h : cs.find? (fun c => c.index = i) = some ex) :
    ∃ P Q, cs = P ++ ex :: Q ∧ ex.index = i
      ∧ (∀ sz u, updateChunk cs i sz u = P ++ ({ ex with size := sz, lastUsed := u }) :: Q)
      ∧ (∀ u, touchChunk cs i u = P ++ ({ ex with lastUsed := u }) :: Q) := by
  induction cs with
  | nil => simp at h
  | cons d ds ih =>
    by_cases hd : d.index = i
    · rw [List.find?_cons_of_pos _ (by simp [hd])] at h
      simp only [Option.some.injEq] at h
      subst h
      refine ⟨[], ds, rfl, hd, fun sz u => ?_, fun u => ?_⟩
      · unfold updateChunk
        rw [if_pos hd]
        rfl
      · unfold touchChunk
        rw [if_pos hd]
        rfl
    · rw [List.find?_cons_of_neg _ (by simp [hd])] at h
      obtain ⟨P, Q, h1, h2, h3, h4⟩ := ih h
      refine ⟨d :: P, Q, by rw [h1]; rfl, h2, fun sz u => ?_, fun u => ?_⟩
      · unfold updateChunk
        rw [if_neg hd, h3 sz u]
        rfl
      · unfold touchChunk
        rw [if_neg hd, h4 u]
        rfl

theorem find?_index_none (cs : List ChunkInfo) (i : Nat)
    (h : cs.find? (fun c => c.index = i) = none) : ∀ c ∈ cs, ¬ c.index = i := by
  intro c hc
  have := List.find?_eq_none.mp h c hc
  simpa using this

theorem mem_flatReg (m : ChunkRegistry) (sid : StoreId) (c : ChunkInfo) :
    (sid, c) ∈ flatReg m ↔ ∃ cs, (sid, cs) ∈ m ∧ c ∈ cs := by
  induction m with
  | nil => simp [flatReg]
  | cons kv rest ih =>
    obtain ⟨k, w⟩ := kv
    rw [flatReg_cons]
    simp only [List.mem_append, List.mem_map, ih, List.mem_cons]
    constructor
    · rintro (⟨c', hc', heq⟩ | ⟨cs, hcs, hc⟩)
      · injection heq with h1 h2
        subst h1
        subst h2
        exact ⟨w, Or.inl rfl, hc'⟩
      · exact ⟨cs, Or.inr hcs, hc⟩
    · rintro ⟨cs, hcs | hcs, hc⟩
      · injection hcs with h1 h2
        subst h1
        subst h2
        exact Or.inl ⟨c, hc, rfl⟩
      · exact Or.inr ⟨cs, hcs, hc⟩

theorem regLookup_of_mem (m : ChunkRegistry) (sid : StoreId) (cs : List ChunkInfo)
    (hkeys : (m.map Prod.fst).Nodup) (h : (sid, cs) ∈ m) :
    regLookup m sid = some cs := by
  induction m with
  | nil => simp at h
  | cons kv rest ih =>
    obtain ⟨k, w⟩ := kv
    simp only [List.map_cons, List.nodup_cons] at hkeys
    rcases List.mem_cons.mp h with heq | hrest
    · injection heq with h1 h2
      subst h1
      subst h2
      simp [regLookup]
    · have hk : ¬ k = sid := by
        intro hks
        exact hkeys.1 (hks ▸ List.mem_map_of_mem Prod.fst hrest)
      simp only [regLookup, if_neg hk]
      exact ih hkeys.2 hrest

theorem map_store_size (sid : StoreId) (P : List ChunkInfo) :
    List.map ((fun p : StoreId × ChunkInfo => p.2.size) ∘ fun c => (sid, c)) P =
      List.map ChunkInfo.size P := by
  induction P with
  | nil => rfl
  | cons d ds ih => simp [ih, Function.comp]

theorem map_store_used (sid : StoreId) (P : List ChunkInfo) :
    List.map ((fun p : StoreId × ChunkInfo => p.2.lastUsed) ∘ fun c => (sid, c)) P =
      List.map ChunkInfo.lastUsed P := by
  induction P with
  | nil => rfl
  | cons d ds ih => simp [ih, Function.comp]

theorem removeChunk_spec (t : GlobalMemoryTracker) (sid : StoreId) (i : Nat) (hWF : t.WF) :
    (t.removeChunk sid i).WF
      ∧ (t.removeChunk sid i).accessCounter = t.accessCounter
      ∧ (t.removeChunk sid i).sumAll ≤ t.sumAll
      ∧ (t.removeChunk sid i).usedList.Sublist t.usedList := by
  obtain ⟨hkeys, hent, htot⟩ := hWF
  unfold GlobalMemoryTracker.removeChunk
  rcases hlook : regLookup t.chunks sid with _ | cs
  · exact ⟨⟨hkeys, hent, htot⟩, rfl, le_refl _, List.Sublist.refl _⟩
  · dsimp only
    rcases hrem : removeFirstIndex cs i with _ | ⟨c, rest⟩
    · exact ⟨⟨hkeys, hent, htot⟩, rfl, le_refl _, List.Sublist.refl _⟩
    · dsimp only
      obtain ⟨A, B, hfl, hset, _⟩ := regLookup_decomp t.chunks sid cs hlook
      obtain ⟨P, Q, hcs, hrest, hidx⟩ := removeFirstIndex_some cs i c rest hrem
      have hcsnd : (cs.map ChunkInfo.index).Nodup :=
        hent (sid, cs) (regLookup_mem t.chunks sid cs hlook)
      have hs1 : t.sumAll =
          pairSizes A + (sumSizes P + (c.size + sumSizes Q)) + pairSizes B := by
        simp only [GlobalMemoryTracker.sumAll, GlobalMemoryTracker.allChunksList, hfl, hcs]
        simp [pairSizes_append, pairSizes_mapStore, sumSizes_append, sumSizes_cons, pairSizes,
          sumSizes, map_store_size]
        omega
      have hs2 : pairSizes (flatReg (regSet t.chunks sid rest)) =
          pairSizes A + (sumSizes P + sumSizes Q) + pairSizes B := by
        rw [hset rest, hrest]
        simp [pairSizes_append, pairSizes_mapStore, sumSizes_append, pairSizes, sumSizes,
          map_store_size]
        omega
      have hsum' : GlobalMemoryTracker.sumAll
          { totalMemory := t.totalMemory - (c.size : Int), chunks := regSet t.chunks sid rest,
            maxMemory := t.maxMemory, accessCounter := t.accessCounter } =
          pairSizes (flatReg (regSet t.chunks sid rest)) := rfl
      refine ⟨⟨?_, ?_, ?_⟩, rfl, ?_, ?_⟩
      · show (List.map Prod.fst (regSet t.chunks sid rest)).Nodup
        rw [keys_regSet_some t.chunks sid cs rest hlook]
        exact hkeys
      · intro p hp
        rcases mem_regSet t.chunks sid rest p hp with hp' | rfl
        · exact hent p hp'
        · have hsub : ((rest.map ChunkInfo.index)).Sublist (cs.map ChunkInfo.index) := by
            rw [hcs, hrest]
            exact ((List.sublist_cons_self c Q).append_left P).map ChunkInfo.index
          exact hcsnd.sublist hsub
      · show t.totalMemory - (c.size : Int) = _
        rw [hsum', htot, hs1, hs2]
        push_cast
        ring
      · show pairSizes (flatReg (regSet t.chunks sid rest)) ≤ t.sumAll
        rw [hs2, hs1]
        omega
      · show (pairUsed (flatReg (regSet t.chunks sid rest))).Sublist t.usedList
        have hu1 : t.usedList =
            (pairUsed A ++ P.map ChunkInfo.lastUsed) ++
              c.lastUsed :: (Q.map ChunkInfo.lastUsed ++ pairUsed B) := by
          simp only [GlobalMemoryTracker.usedList, GlobalMemoryTracker.allChunksList, hfl, hcs]
          simp [pairUsed_append, pairUsed_mapStore, pairUsed, map_store_used]
        have hu2 : pairUsed (flatReg (regSet t.chunks sid rest)) =
            (pairUsed A ++ P.map ChunkInfo.lastUsed) ++
              (Q.map ChunkInfo.lastUsed ++ pairUsed B) := by
          rw [hset rest, hrest]
          simp [pairUsed_append, pairUsed_mapStore, pairUsed, map_store_used]
        rw [hu1, hu2]
        exact (List.Sublist.refl _).append (List.sublist_cons_self _ _)

theorem regLookup_regSet_self (m : ChunkRegistry) (sid : StoreId) (v : List ChunkInfo) :
    regLookup (regSet m sid v) sid = some v := by
  induction m with
  | nil => simp [regSet, regLookup]
  | cons kv rest ih =>
    obtain ⟨k, w⟩ := kv
    by_cases hk : k = sid
    · simp [regSet, if_pos hk, regLookup]
    · simp only [regSet, if_neg hk, regLookup, if_neg hk]
      exact ih

/-- A state whose used-stamps are a sublist of a counters-sane state
with the same counter is itself counters-sane. -/
theorem countersOK_of_sub (t t' : GlobalMemoryTracker) (hC : t.countersOK)
    (hsub : t'.usedList.Sublist t.usedList) (hctr : t'.accessCounter = t.accessCounter) :
    t'.countersOK :=
  ⟨hC.1.sublist hsub, fun v hv => hctr ▸ hC.2 v (hsub.mem hv)⟩

theorem accessChunk_spec (t : GlobalMemoryTracker) (sid : StoreId) (i : Nat)
    (hWF : t.WF) (hC : t.countersOK) :
    (t.accessChunk sid i).WF
      ∧ (t.accessChunk sid i).countersOK
      ∧ (t.accessChunk sid i).sumAll = t.sumAll
      ∧ (∀ cs, regLookup t.chunks sid = some cs →
          (cs.find? (fun c => c.index = i)).isSome = true →
          (t.accessChunk sid i).accessCounter = t.accessCounter + 1) := by
  obtain ⟨hkeys, hent, htot⟩ := hWF
  unfold GlobalMemoryTracker.accessChunk
  rcases hlook : regLookup t.chunks sid with _ | cs
  · exact ⟨⟨hkeys, hent, htot⟩, hC, rfl, fun cs h => by simp at h⟩
  · dsimp only
    rcases hfind : cs.find? (fun c => c.index = i) with _ | ex
    · rw [if_neg (by simp [hfind])]
      refine ⟨⟨hkeys, hent, htot⟩, hC, rfl, fun cs' h1 h2 => ?_⟩
      injection h1 with h1
      subst h1
      rw [hfind] at h2
      simp at h2
    · rw [if_pos (by simp [hfind])]
      obtain ⟨A, B, hfl, hset, _⟩ := regLookup_decomp t.chunks sid cs hlook
      obtain ⟨P, Q, hcs, hidx, hupd, htouch⟩ := find?_index_decomp cs i ex hfind
      have hcsnd : (cs.map ChunkInfo.index).Nodup :=
        hent (sid, cs) (regLookup_mem t.chunks sid cs hlook)
      have hflat' : flatReg (regSet t.chunks sid (touchChunk cs i (t.accessCounter + 1))) =
          A ++ (P.map (fun c => (sid, c)) ++
            (sid, { ex with lastUsed := t.accessCounter + 1 }) ::
              Q.map (fun c => (sid, c))) ++ B := by
        rw [hset _, htouch _]
        simp
      have hflat : flatReg t.chunks =
          A ++ (P.map (fun c => (sid, c)) ++ (sid, ex) :: Q.map (fun c => (sid, c))) ++ B := by
        rw [hfl, hcs]
        simp
      have hused : t.usedList =
          (pairUsed A ++ P.map ChunkInfo.lastUsed) ++
            ex.lastUsed :: (Q.map ChunkInfo.lastUsed ++ pairUsed B) := by
        simp only [GlobalMemoryTracker.usedList, GlobalMemoryTracker.allChunksList, hflat]
        simp [pairUsed_append, pairUsed_mapStore, pairUsed, map_store_used]
      have hused' :
          pairUsed (flatReg (regSet t.chunks sid (touchChunk cs i (t.accessCounter + 1)))) =
          (pairUsed A ++ P.map ChunkInfo.lastUsed) ++
            (t.accessCounter + 1) :: (Q.map ChunkInfo.lastUsed ++ pairUsed B) := by
        rw [hflat']
        simp [pairUsed_append, pairUsed_mapStore, pairUsed, map_store_used]
      have hnd := hC.1
      rw [hused, List.nodup_middle, List.nodup_cons] at hnd
      have hmemrest : ∀ v ∈ (pairUsed A ++ P.map ChunkInfo.lastUsed) ++
          (Q.map ChunkInfo.lastUsed ++ pairUsed B), v ≤ t.accessCounter := by
        intro v hv
        refine hC.2 v ?_
        rw [hused]
        rcases List.mem_append.mp hv with hv | hv
        · exact List.mem_append.mpr (Or.inl hv)
        · exact List.mem_append.mpr (Or.inr (List.mem_cons_of_mem _ hv))
      refine ⟨⟨?_, ?_, ?_⟩, ⟨?_, ?_⟩, ?_, fun cs' h1 _ => rfl⟩
      · show (List.map Prod.fst (regSet t.chunks sid _)).Nodup
        rw [keys_regSet_some t.chunks sid cs _ hlook]
        exact hkeys
      · intro p hp
        rcases mem_regSet t.chunks sid _ p hp with hp' | rfl
        · exact hent p hp'
        · have : ((touchChunk cs i (t.accessCounter + 1)).map ChunkInfo.index) =
              cs.map ChunkInfo.index := by
            rw [htouch _, hcs]
            simp
          rw [this]
          exact hcsnd
      · show t.totalMemory = _
        have h2 : GlobalMemoryTracker.sumAll
            { totalMemory := t.totalMemory,
              chunks := regSet t.chunks sid (touchChunk cs i (t.accessCounter + 1)),
              maxMemory := t.maxMemory, accessCounter := t.accessCounter + 1 } =
            pairSizes (flatReg (regSet t.chunks sid (touchChunk cs i (t.accessCounter + 1)))) :=
          rfl
        have hnat : pairSizes
            (flatReg (regSet t.chunks sid (touchChunk cs i (t.accessCounter + 1)))) =
            t.sumAll := by
          have h1 : t.sumAll = pairSizes (flatReg t.chunks) := rfl
          rw [hflat', h1, hflat]
          simp [pairSizes_append, pairSizes, map_store_size, Function.comp]
        rw [h2, hnat, htot]
      · show (pairUsed (flatReg (regSet t.chunks sid _))).Nodup
        rw [hused', List.nodup_middle, List.nodup_cons]
        refine ⟨fun hmem => ?_, hnd.2⟩
        have := hmemrest _ hmem
        omega
      · intro v hv
        show v ≤ t.accessCounter + 1
        have hv' : v ∈ pairUsed (flatReg (regSet t.chunks sid
            (touchChunk cs i (t.accessCounter + 1)))) := hv
        rw [hused'] at hv'
        rcases List.mem_append.mp hv' with hv' | hv'
        · have := hmemrest v (List.mem_append.mpr (Or.inl hv'))
          omega
        · rcases List.mem_cons.mp hv' with rfl | hv'
          · omega
          · have := hmemrest v (List.mem_append.mpr (Or.inr hv'))
            omega
      · show pairSizes (flatReg (regSet t.chunks sid _)) = t.sumAll
        have h1 : t.sumAll = pairSizes (flatReg t.chunks) := rfl
        rw [hflat', h1, hflat]
        simp [pairSizes_append, pairSizes, map_store_size, Function.comp]

theorem removeStore_spec (t : GlobalMemoryTracker) (sid : StoreId) (hWF : t.WF) :
    (t.removeStore sid).WF
      ∧ (t.removeStore sid).accessCounter = t.accessCounter
      ∧ (t.removeStore sid).sumAll ≤ t.sumAll
      ∧ (t.removeStore sid).usedList.Sublist t.usedList
      ∧ (t.removeStore sid).maxMemory = t.maxMemory := by
  obtain ⟨hkeys, hent, htot⟩ := hWF
  unfold GlobalMemoryTracker.removeStore
  rcases hlook : regLookup t.chunks sid with _ | cs
  · exact ⟨⟨hkeys, hent, htot⟩, rfl, le_refl _, List.Sublist.refl _, rfl⟩
  · dsimp only
    obtain ⟨A, B, hfl, _, hdel⟩ := regLookup_decomp t.chunks sid cs hlook
    have hs1 : t.sumAll = pairSizes A + sumSizes cs + pairSizes B := by
      simp only [GlobalMemoryTracker.sumAll, GlobalMemoryTracker.allChunksList, hfl]
      simp [pairSizes_append, pairSizes_mapStore]
      omega
    have hs2 : GlobalMemoryTracker.sumAll
        { totalMemory := t.totalMemory - (sumSizes cs : Int), chunks := regDelete t.chunks sid,
          maxMemory := t.maxMemory, accessCounter := t.accessCounter } =
        pairSizes A + pairSizes B := by
      show pairSizes (flatReg (regDelete t.chunks sid)) = _
      rw [hdel]
      simp [pairSizes_append]
    refine ⟨⟨?_, ?_, ?_⟩, rfl, ?_, ?_, rfl⟩
    · show (List.map Prod.fst (regDelete t.chunks sid)).Nodup
      exact hkeys.sublist (keys_regDelete_sublist t.chunks sid)
    · intro p hp
      exact hent p (mem_regDelete t.chunks sid p hp)
    · show t.totalMemory - (sumSizes cs : Int) = _
      rw [hs2, htot, hs1]
      push_cast
      ring
    · show GlobalMemoryTracker.sumAll _ ≤ t.sumAll
      rw [hs2, hs1]
      omega
    · show (pairUsed (flatReg (regDelete t.chunks sid))).Sublist t.usedList
      have hu1 : t.usedList = pairUsed A ++ (pairUsed (cs.map (fun c => (sid, c))) ++ pairUsed B) := by
        simp only [GlobalMemoryTracker.usedList, GlobalMemoryTracker.allChunksList, hfl]
        simp [pairUsed_append]
      have hu2 : pairUsed (flatReg (regDelete t.chunks sid)) = pairUsed A ++ pairUsed B := by
        rw [hdel]
        simp [pairUsed_append]
      rw [hu1, hu2]
      exact (List.Sublist.refl _).append (List.sublist_append_right _ _)

/-! #### Eviction lemmas -/

theorem oldestScan_some (l : List (StoreId × ChunkInfo)) :
    ∀ acc x, oldestScan acc l = some x → x ∈ l ∨ acc = some x := by
  induction l with
  | nil =>
    intro acc x h
    exact Or.inr h
  | cons y ys ih =>
    intro acc x h
    unfold oldestScan at h
    rcases acc with _ | b
    · dsimp only at h
      rcases ih (some y) x h with hm | hx
      · exact Or.inl (List.mem_cons_of_mem _ hm)
      · injection hx with hx
        exact Or.inl (hx ▸ List.mem_cons_self _ _)
    · dsimp only at h
      by_cases hlt : y.2.lastUsed < b.2.lastUsed
      · rw [if_pos hlt] at h
        rcases ih (some y) x h with hm | hx
        · exact Or.inl (List.mem_cons_of_mem _ hm)
        · injection hx with hx
          exact Or.inl (hx ▸ List.mem_cons_self _ _)
      · rw [if_neg hlt] at h
        rcases ih (some b) x h with hm | hx
        · exact Or.inl (List.mem_cons_of_mem _ hm)
        · exact Or.inr hx

theorem oldestScan_acc_some (l : List (StoreId × ChunkInfo)) :
    ∀ b, oldestScan (some b) l ≠ none := by
  induction l with
  | nil => intro b h; simp [oldestScan] at h
  | cons y ys ih =>
    intro b h
    unfold oldestScan at h
    dsimp only at h
    by_cases hlt : y.2.lastUsed < b.2.lastUsed
    · rw [if_pos hlt] at h
      exact ih y h
    · rw [if_neg hlt] at h
      exact ih b h

theorem findOldest_none (t : GlobalMemoryTracker) (h : t.findOldest = none) :
    t.allChunksList = [] := by
  unfold GlobalMemoryTracker.findOldest at h
  rcases hl : t.allChunksList with _ | ⟨y, ys⟩
  · rfl
  · rw [hl] at h
    unfold oldestScan at h
    exact absurd h (oldestScan_acc_some ys y)

theorem findOldest_mem (t : GlobalMemoryTracker) (sid : StoreId) (c : ChunkInfo)
    (h : t.findOldest = some (sid, c)) : (sid, c) ∈ t.allChunksList := by
  unfold GlobalMemoryTracker.findOldest at h
  rcases oldestScan_some t.allChunksList none (sid, c) h with hm | hx
  · exact hm
  · simp at hx

/-- `removeChunk` at a registered chunk removes exactly that chunk from
the flattened registry. -/
theorem removeChunk_flat (t : GlobalMemoryTracker) (sid : StoreId) (c : ChunkInfo)
    (hWF : t.WF) (hmem : (sid, c) ∈ flatReg t.chunks) :
    ∃ X Y, flatReg t.chunks = X ++ (sid, c) :: Y
      ∧ flatReg (t.removeChunk sid c.index).chunks = X ++ Y := by
  obtain ⟨hkeys, hent, _⟩ := hWF
  obtain ⟨cs, hcsmem, hcmem⟩ := (mem_flatReg t.chunks sid c).mp hmem
  have hlook : regLookup t.chunks sid = some cs := regLookup_of_mem t.chunks sid cs hkeys hcsmem
  obtain ⟨P, Q, hcs, hrem⟩ :=
    removeFirstIndex_of_mem_nodup cs c (hent (sid, cs) hcsmem) hcmem
  obtain ⟨A, B, hfl, hset, _⟩ := regLookup_decomp t.chunks sid cs hlook
  refine ⟨A ++ P.map (fun x => (sid, x)), Q.map (fun x => (sid, x)) ++ B, ?_, ?_⟩
  · rw [hfl, hcs]
    simp
  · show flatReg (GlobalMemoryTracker.removeChunk t sid c.index).chunks = _
    unfold GlobalMemoryTracker.removeChunk
    rw [hlook]
    dsimp only
    rw [hrem]
    dsimp only
    rw [hset _]
    simp

theorem removeOldestStep_eq_removeChunk (t : GlobalMemoryTracker) (sid : StoreId)
    (c : ChunkInfo) (hWF : t.WF) (hmem : (sid, c) ∈ flatReg t.chunks) :
    t.removeOldestStep sid c = t.removeChunk sid c.index := by
  obtain ⟨hkeys, hent, _⟩ := hWF
  obtain ⟨cs, hcsmem, hcmem⟩ := (mem_flatReg t.chunks sid c).mp hmem
  have hlook : regLookup t.chunks sid = some cs := regLookup_of_mem t.chunks sid cs hkeys hcsmem
  obtain ⟨P, Q, hcs, hrem⟩ :=
    removeFirstIndex_of_mem_nodup cs c (hent (sid, cs) hcsmem) hcmem
  unfold GlobalMemoryTracker.removeOldestStep GlobalMemoryTracker.removeChunk
  rw [hlook]
  dsimp only
  rw [hrem]

theorem evictGo_spec (n : Nat) :
    ∀ t : GlobalMemoryTracker, t.WF → t.chunkCount ≤ n →
      (evictIfNeededGo n t).WF
        ∧ (evictIfNeededGo n t).accessCounter = t.accessCounter
        ∧ (evictIfNeededGo n t).maxMemory = t.maxMemory
        ∧ (evictIfNeededGo n t).sumAll ≤ t.sumAll
        ∧ (evictIfNeededGo n t).usedList.Sublist t.usedList
        ∧ ((evictIfNeededGo n t).totalMemory ≤ (evictIfNeededGo n t).maxMemory
            ∨ (evictIfNeededGo n t).allChunksList = []) := by
  induction n with
  | zero =>
    intro t hWF hcount
    have hnil : t.allChunksList = [] := List.eq_nil_of_length_eq_zero (Nat.le_zero.mp hcount)
    exact ⟨hWF, rfl, rfl, le_refl _, List.Sublist.refl _, Or.inr hnil⟩
  | succ n ih =>
    intro t hWF hcount
    unfold evictIfNeededGo
    by_cases htot' : t.totalMemory > t.maxMemory
    · rw [if_pos htot']
      rcases hold : t.findOldest with _ | ⟨sid, c⟩
      · exact ⟨hWF, rfl, rfl, le_refl _, List.Sublist.refl _, Or.inr (findOldest_none t hold)⟩
      · dsimp only
        have hmem : (sid, c) ∈ flatReg t.chunks := findOldest_mem t sid c hold
        have heq := removeOldestStep_eq_removeChunk t sid c hWF hmem
        obtain ⟨X, Y, hXY1, hXY2⟩ := removeChunk_flat t sid c hWF hmem
        obtain ⟨hWF', hctr', hsum', hused'⟩ := removeChunk_spec t sid c.index hWF
        have hcount' : (t.removeChunk sid c.index).chunkCount ≤ n := by
          have h1 : t.chunkCount = X.length + (1 + Y.length) := by
            show (flatReg t.chunks).length = _
            rw [hXY1]
            simp
            omega
          have h2 : (t.removeChunk sid c.index).chunkCount = X.length + Y.length := by
            show (flatReg (t.removeChunk sid c.index).chunks).length = _
            rw [hXY2]
            simp
          omega
        obtain ⟨w1, w2, w3, w4, w5, w6⟩ := ih (t.removeChunk sid c.index) hWF' hcount'
        rw [heq]
        exact ⟨w1, by rw [w2, hctr'], by rw [w3, maxMemory_removeChunk],
          w4.trans hsum', w5.trans hused', w6⟩
    · rw [if_neg htot']
      exact ⟨hWF, rfl, rfl, le_refl _, List.Sublist.refl _, Or.inl (by omega)⟩

theorem evictIfNeeded_spec (t : GlobalMemoryTracker) (hWF : t.WF) :
    t.evictIfNeeded.WF
      ∧ t.evictIfNeeded.accessCounter = t.accessCounter
      ∧ t.evictIfNeeded.maxMemory = t.maxMemory
      ∧ t.evictIfNeeded.sumAll ≤ t.sumAll
      ∧ t.evictIfNeeded.usedList.Sublist t.usedList
      ∧ (0 ≤ t.maxMemory → (t.evictIfNeeded.sumAll : Int) ≤ t.maxMemory) := by
  unfold GlobalMemoryTracker.evictIfNeeded
  obtain ⟨w1, w2, w3, w4, w5, w6⟩ := evictGo_spec t.chunkCount t hWF (le_refl _)
  refine ⟨w1, w2, w3, w4, w5, fun hmax => ?_⟩
  rcases w6 with hle | hnil
  · rw [w1.2.2] at hle
    rw [w3] at hle
    exact hle
  · have hz : (evictIfNeededGo t.chunkCount t).sumAll = 0 := by
      show pairSizes (evictIfNeededGo t.chunkCount t).allChunksList = 0
      rw [hnil]
      rfl
    rw [hz]
    simpa using hmax

/-! #### addChunk -/

theorem addChunk_eq_found (t : GlobalMemoryTracker) (sid : StoreId) (i sz : Nat)
    (cs0 : List ChunkInfo) (hlookup : regLookup t.chunks sid = some cs0)
    (ex : ChunkInfo) (hfind : cs0.find? (fun c => c.index = i) = some ex) :
    t.addChunk sid i sz = GlobalMemoryTracker.evictIfNeeded
      { totalMemory := t.totalMemory - (ex.size : Int) + (sz : Int),
        chunks := regSet t.chunks sid (updateChunk cs0 i sz (t.accessCounter + 1)),
        maxMemory := t.maxMemory, accessCounter := t.accessCounter + 1 } := by
  unfold GlobalMemoryTracker.addChunk
  simp only [hlookup, Option.isSome_some, Option.getD_some, if_true, hfind]

theorem addChunk_eq_push (t : GlobalMemoryTracker) (sid : StoreId) (i sz : Nat)
    (cs0 : List ChunkInfo) (hlookup : regLookup t.chunks sid = some cs0)
    (hfind : cs0.find? (fun c => c.index = i) = none) :
    t.addChunk sid i sz = GlobalMemoryTracker.evictIfNeeded
      { totalMemory := t.totalMemory + (sz : Int),
        chunks := regSet t.chunks sid
          (cs0 ++ [{ index := i, size := sz, lastUsed := t.accessCounter + 1 }]),
        maxMemory := t.maxMemory, accessCounter := t.accessCounter + 1 } := by
  unfold GlobalMemoryTracker.addChunk
  simp only [hlookup, Option.isSome_some, Option.getD_some, if_true, hfind]

theorem addChunk_eq_new (t : GlobalMemoryTracker) (sid : StoreId) (i sz : Nat)
    (hlookup : regLookup t.chunks sid = none) :
    t.addChunk sid i sz = GlobalMemoryTracker.evictIfNeeded
      { totalMemory := t.totalMemory + (sz : Int),
        chunks := regSet (regSet t.chunks sid [])
          sid ([] ++ [{ index := i, size := sz, lastUsed := t.accessCounter + 1 }]),
        maxMemory := t.maxMemory, accessCounter := t.accessCounter + 1 } := by
  unfold GlobalMemoryTracker.addChunk
  simp only [hlookup, Option.isSome_none, Bool.false_eq_true, if_false, regLookup_regSet_self,
    Option.getD_some, List.find?_nil, List.nil_append]

/-- Well-formedness and counter sanity of the state `addChunk` builds
when it updates an existing chunk in place. -/
theorem mid_update_spec (t : GlobalMemoryTracker) (m : ChunkRegistry) (sid : StoreId)
    (scs : List ChunkInfo) (i sz : Nat) (ex : ChunkInfo)
    (hm_keys : (m.map Prod.fst).Nodup)
    (hm_ent : ∀ p ∈ m, (p.2.map ChunkInfo.index).Nodup)
    (hm_look : regLookup m sid = some scs)
    (hm_flat : flatReg m = flatReg t.chunks)
    (hWF : t.WF) (hC : t.countersOK)
    (hfind : scs.find? (fun c => c.index = i) = some ex) :
    GlobalMemoryTracker.WF
      { totalMemory := t.totalMemory - (ex.size : Int) + (sz : Int),
        chunks := regSet m sid (updateChunk scs i sz (t.accessCounter + 1)),
        maxMemory := t.maxMemory, accessCounter := t.accessCounter + 1 }
    ∧ GlobalMemoryTracker.countersOK
      { totalMemory := t.totalMemory - (ex.size : Int) + (sz : Int),
        chunks := regSet m sid (updateChunk scs i sz (t.accessCounter + 1)),
        maxMemory := t.maxMemory, accessCounter := t.accessCounter + 1 } := by
  obtain ⟨hkeys, hent, htot⟩ := hWF
  obtain ⟨A, B, hfl, hset, _⟩ := regLookup_decomp m sid scs hm_look
  obtain ⟨P, Q, hscs, hidx, hupd, _⟩ := find?_index_decomp scs i ex hfind
  have hscs_nd : (scs.map ChunkInfo.index).Nodup :=
    hm_ent (sid, scs) (regLookup_mem m sid scs hm_look)
  have hflat_t : flatReg t.chunks =
      A ++ (P.map (fun c => (sid, c)) ++ (sid, ex) :: Q.map (fun c => (sid, c))) ++ B := by
    rw [← hm_flat, hfl, hscs]
    simp
  have hflat_mid : flatReg (regSet m sid (updateChunk scs i sz (t.accessCounter + 1))) =
      A ++ (P.map (fun c => (sid, c)) ++
        (sid, { index := ex.index, size := sz, lastUsed := t.accessCounter + 1 }) ::
          Q.map (fun c => (sid, c))) ++ B := by
    rw [hset _, hupd _ _]
    simp
  have hused_t : t.usedList =
      (pairUsed A ++ P.map ChunkInfo.lastUsed) ++
        ex.lastUsed :: (Q.map ChunkInfo.lastUsed ++ pairUsed B) := by
    simp only [GlobalMemoryTracker.usedList, GlobalMemoryTracker.allChunksList, hflat_t]
    simp [pairUsed_append, pairUsed, map_store_used, Function.comp]
  have hused_mid : pairUsed (flatReg (regSet m sid (updateChunk scs i sz (t.accessCounter + 1)))) =
      (pairUsed A ++ P.map ChunkInfo.lastUsed) ++
        (t.accessCounter + 1) :: (Q.map ChunkInfo.lastUsed ++ pairUsed B) := by
    rw [hflat_mid]
    simp [pairUsed_append, pairUsed, map_store_used, Function.comp]
  have hnd := hC.1
  rw [hused_t, List.nodup_middle, List.nodup_cons] at hnd
  have hmemrest : ∀ v ∈ (pairUsed A ++ P.map ChunkInfo.lastUsed) ++
      (Q.map ChunkInfo.lastUsed ++ pairUsed B), v ≤ t.accessCounter := by
    intro v hv
    refine hC.2 v ?_
    rw [hused_t]
    rcases List.mem_append.mp hv with hv | hv
    · exact List.mem_append.mpr (Or.inl hv)
    · exact List.mem_append.mpr (Or.inr (List.mem_cons_of_mem _ hv))
  refine ⟨⟨?_, ?_, ?_⟩, ?_, ?_⟩
  · show (List.map Prod.fst (regSet m sid _)).Nodup
    rw [keys_regSet_some m sid scs _ hm_look]
    exact hm_keys
  · intro p hp
    rcases mem_regSet m sid _ p hp with hp' | rfl
    · exact hm_ent p hp'
    · have : ((updateChunk scs i sz (t.accessCounter + 1)).map ChunkInfo.index) =
          scs.map ChunkInfo.index := by
        rw [hupd _ _, hscs]
        simp
      rw [this]
      exact hscs_nd
  · show t.totalMemory - (ex.size : Int) + (sz : Int) = _
    have hrfl : GlobalMemoryTracker.sumAll
        { totalMemory := t.totalMemory - (ex.size : Int) + (sz : Int),
          chunks := regSet m sid (updateChunk scs i sz (t.accessCounter + 1)),
          maxMemory := t.maxMemory, accessCounter := t.accessCounter + 1 } =
        pairSizes (flatReg (regSet m sid (updateChunk scs i sz (t.accessCounter + 1)))) := rfl
    have hsum_t : t.sumAll = pairSizes A +
        ((P.map ChunkInfo.size).sum + (ex.size + (Q.map ChunkInfo.size).sum)) + pairSizes B := by
      show pairSizes (flatReg t.chunks) = _
      rw [hflat_t]
      simp [pairSizes_append, pairSizes, map_store_size, Function.comp]
      omega
    have hsum_mid : pairSizes (flatReg (regSet m sid (updateChunk scs i sz (t.accessCounter + 1)))) =
        pairSizes A +
          ((P.map ChunkInfo.size).sum + (sz + (Q.map ChunkInfo.size).sum)) + pairSizes B := by
      rw [hflat_mid]
      simp [pairSizes_append, pairSizes, map_store_size, Function.comp]
      omega
    rw [hrfl, hsum_mid, htot, hsum_t]
    push_cast
    ring
  · show (pairUsed (flatReg (regSet m sid _))).Nodup
    rw [hused_mid, List.nodup_middle, List.nodup_cons]
    refine ⟨fun hmem => ?_, hnd.2⟩
    have := hmemrest _ hmem
    omega
  · intro v hv
    show v ≤ t.accessCounter + 1
    have hv' : v ∈ pairUsed (flatReg (regSet m sid (updateChunk scs i sz (t.accessCounter + 1)))) :=
      hv
    rw [hused_mid] at hv'
    rcases List.mem_append.mp hv' with hv' | hv'
    · have := hmemrest v (List.mem_append.mpr (Or.inl hv'))
      omega
    · rcases List.mem_cons.mp hv' with rfl | hv'
      · omega
      · have := hmemrest v (List.mem_append.mpr (Or.inr hv'))
        omega

/-- Well-formedness and counter sanity of the state `addChunk` builds
when it pushes a new chunk. -/
theorem mid_push_spec (t : GlobalMemoryTracker) (m : ChunkRegistry) (sid : StoreId)
    (scs : List ChunkInfo) (i sz : Nat)
    (hm_keys : (m.map Prod.fst).Nodup)
    (hm_ent : ∀ p ∈ m, (p.2.map ChunkInfo.index).Nodup)
    (hm_look : regLookup m sid = some scs)
    (hm_flat : flatReg m = flatReg t.chunks)
    (hWF : t.WF) (hC : t.countersOK)
    (hfind : scs.find? (fun c => c.index = i) = none) :
    GlobalMemoryTracker.WF
      { totalMemory := t.totalMemory + (sz : Int),
        chunks := regSet m sid
          (scs ++ [{ index := i, size := sz, lastUsed := t.accessCounter + 1 }]),
        maxMemory := t.maxMemory, accessCounter := t.accessCounter + 1 }
    ∧ GlobalMemoryTracker.countersOK
      { totalMemory := t.totalMemory + (sz : Int),
        chunks := regSet m sid
          (scs ++ [{ index := i, size := sz, lastUsed := t.accessCounter + 1 }]),
        maxMemory := t.maxMemory, accessCounter := t.accessCounter + 1 } := by
  obtain ⟨hkeys, hent, htot⟩ := hWF
  obtain ⟨A, B, hfl, hset, _⟩ := regLookup_decomp m sid scs hm_look
  have hscs_nd : (scs.map ChunkInfo.index).Nodup :=
    hm_ent (sid, scs) (regLookup_mem m sid scs hm_look)
  have hflat_t : flatReg t.chunks = A ++ scs.map (fun c => (sid, c)) ++ B := by
    rw [← hm_flat, hfl]
  have hflat_mid : flatReg (regSet m sid
      (scs ++ [{ index := i, size := sz, lastUsed := t.accessCounter + 1 }])) =
      (A ++ scs.map (fun c => (sid, c))) ++
        (sid, ({ index := i, size := sz, lastUsed := t.accessCounter + 1 } : ChunkInfo)) :: B := by
    rw [hset _]
    simp
  have hused_t : t.usedList =
      (pairUsed A ++ scs.map ChunkInfo.lastUsed) ++ pairUsed B := by
    simp only [GlobalMemoryTracker.usedList, GlobalMemoryTracker.allChunksList, hflat_t]
    simp [pairUsed_append, pairUsed, map_store_used, Function.comp]
  have hused_mid : pairUsed (flatReg (regSet m sid
      (scs ++ [{ index := i, size := sz, lastUsed := t.accessCounter + 1 }]))) =
      (pairUsed A ++ scs.map ChunkInfo.lastUsed) ++ (t.accessCounter + 1) :: pairUsed B := by
    rw [hflat_mid]
    simp [pairUsed_append, pairUsed, map_store_used, Function.comp]
  have hmemrest : ∀ v ∈ (pairUsed A ++ scs.map ChunkInfo.lastUsed) ++ pairUsed B,
      v ≤ t.accessCounter := by
    intro v hv
    refine hC.2 v ?_
    rw [hused_t]
    exact hv
  refine ⟨⟨?_, ?_, ?_⟩, ?_, ?_⟩
  · show (List.map Prod.fst (regSet m sid _)).Nodup
    rw [keys_regSet_some m sid scs _ hm_look]
    exact hm_keys
  · intro p hp
    rcases mem_regSet m sid _ p hp with hp' | rfl
    · exact hm_ent p hp'
    · show ((scs ++ [({ index := i, size := sz, lastUsed := t.accessCounter + 1 } : ChunkInfo)]).map
        ChunkInfo.index).Nodup
      rw [List.map_append]
      rw [List.nodup_append]
      refine ⟨hscs_nd, by simp, ?_⟩
      intro a ha hb
      simp only [List.map_cons, List.map_nil, List.mem_singleton] at hb
      obtain ⟨c, hc, rfl⟩ := List.mem_map.mp ha
      exact (find?_index_none scs i hfind c hc) hb
  · show t.totalMemory + (sz : Int) = _
    have hrfl : GlobalMemoryTracker.sumAll
        { totalMemory := t.totalMemory + (sz : Int),
          chunks := regSet m sid
            (scs ++ [{ index := i, size := sz, lastUsed := t.accessCounter + 1 }]),
          maxMemory := t.maxMemory, accessCounter := t.accessCounter + 1 } =
        pairSizes (flatReg (regSet m sid
          (scs ++ [{ index := i, size := sz, lastUsed := t.accessCounter + 1 }]))) := rfl
    have hsum_t : t.sumAll = pairSizes A + (scs.map ChunkInfo.size).sum + pairSizes B := by
      show pairSizes (flatReg t.chunks) = _
      rw [hflat_t]
      simp [pairSizes_append, pairSizes, map_store_size, Function.comp]
      omega
    have hsum_mid : pairSizes (flatReg (regSet m sid
        (scs ++ [{ index := i, size := sz, lastUsed := t.accessCounter + 1 }]))) =
        pairSizes A + (scs.map ChunkInfo.size).sum + sz + pairSizes B := by
      rw [hflat_mid]
      simp [pairSizes_append, pairSizes, map_store_size, Function.comp]
      omega
    rw [hrfl, hsum_mid, htot, hsum_t]
    push_cast
    ring
  · show (pairUsed (flatReg (regSet m sid _))).Nodup
    rw [hused_mid, List.nodup_middle, List.nodup_cons]
    constructor
    · intro hmem
      have := hmemrest _ hmem
      omega
    · have := hC.1
      rw [hused_t] at this
      exact this
  · intro v hv
    show v ≤ t.accessCounter + 1
    have hv' : v ∈ pairUsed (flatReg (regSet m sid
        (scs ++ [{ index := i, size := sz, lastUsed := t.accessCounter + 1 }]))) := hv
    rw [hused_mid] at hv'
    rcases List.mem_append.mp hv' with hv' | hv'
    · have := hmemrest v (List.mem_append.mpr (Or.inl hv'))
      omega
    · rcases List.mem_cons.mp hv' with rfl | hv'
      · omega
      · have := hmemrest v (List.mem_append.mpr (Or.inr hv'))
        omega

/-- Discharging the final `evictIfNeeded` of `addChunk` from mid-state facts. -/
theorem addChunk_finish (t tmid : GlobalMemoryTracker)
    (hWF' : tmid.WF) (hC' : tmid.countersOK)
    (hctr : tmid.accessCounter = t.accessCounter + 1)
    (hmax : tmid.maxMemory = t.maxMemory) :
    tmid.evictIfNeeded.WF
      ∧ tmid.evictIfNeeded.countersOK
      ∧ tmid.evictIfNeeded.accessCounter = t.accessCounter + 1
      ∧ tmid.evictIfNeeded.maxMemory = t.maxMemory
      ∧ (0 ≤ t.maxMemory → (tmid.evictIfNeeded.sumAll : Int) ≤ t.maxMemory) := by
  obtain ⟨w1, w2, w3, w4, w5, w6⟩ := evictIfNeeded_spec tmid hWF'
  refine ⟨w1, countersOK_of_sub tmid tmid.evictIfNeeded hC' w5 w2, ?_, ?_, ?_⟩
  · rw [w2, hctr]
  · rw [w3, hmax]
  · intro h
    rw [← hmax] at h
    rw [← hmax]
    exact w6 h

/-- `addChunk` preserves well-formedness and counter sanity, bumps the
global access counter by one, leaves the budget untouched, and — the
C2 heart — leaves the registered total within a nonnegative budget. -/
theorem addChunk_spec (t : GlobalMemoryTracker) (sid : StoreId) (i sz : Nat)
    (hWF : t.WF) (hC : t.countersOK) :
    (t.addChunk sid i sz).WF
      ∧ (t.addChunk sid i sz).countersOK
      ∧ (t.addChunk sid i sz).accessCounter = t.accessCounter + 1
      ∧ (t.addChunk sid i sz).maxMemory = t.maxMemory
      ∧ (0 ≤ t.maxMemory → ((t.addChunk sid i sz).sumAll : Int) ≤ t.maxMemory) := by
  rcases hlookup : regLookup t.chunks sid with _ | cs0
  · have hm_keys : ((regSet t.chunks sid []).map Prod.fst).Nodup := by
      rw [keys_regSet_none t.chunks sid [] hlookup, List.nodup_append]
      refine ⟨hWF.1, List.nodup_singleton sid, ?_⟩
      intro a ha hb
      rw [List.mem_singleton] at hb
      exact regLookup_none_not_mem t.chunks sid hlookup (hb ▸ ha)
    have hm_ent : ∀ p ∈ regSet t.chunks sid [], (p.2.map ChunkInfo.index).Nodup := by
      intro p hp
      rcases mem_regSet t.chunks sid [] p hp with hp' | rfl
      · exact hWF.2.1 p hp'
      · simp
    have hm_look : regLookup (regSet t.chunks sid []) sid = some [] :=
      regLookup_regSet_self t.chunks sid []
    have hm_flat : flatReg (regSet t.chunks sid []) = flatReg t.chunks := by
      rw [flatReg_regSet_new t.chunks sid [] hlookup]
      simp
    rw [addChunk_eq_new t sid i sz hlookup]
    obtain ⟨hWFm, hCm⟩ := mid_push_spec t (regSet t.chunks sid []) sid [] i sz
      hm_keys hm_ent hm_look hm_flat hWF hC (by simp)
    exact addChunk_finish t _ hWFm hCm rfl rfl
  · have hm_flat : flatReg t.chunks = flatReg t.chunks := rfl
    rcases hfind : cs0.find? (fun c => c.index = i) with _ | ex
    · rw [addChunk_eq_push t sid i sz cs0 hlookup hfind]
      obtain ⟨hWFm, hCm⟩ := mid_push_spec t t.chunks sid cs0 i sz
        hWF.1 hWF.2.1 hlookup hm_flat hWF hC hfind
      exact addChunk_finish t _ hWFm hCm rfl rfl
    · rw [addChunk_eq_found t sid i sz cs0 hlookup ex hfind]
      obtain ⟨hWFm, hCm⟩ := mid_update_spec t t.chunks sid cs0 i sz ex
        hWF.1 hWF.2.1 hlookup hm_flat hWF hC hfind
      exact addChunk_finish t _ hWFm hCm rfl rfl

/-! #### The store operations against the tracker -/

/-- Folding `removeChunk` over any target list preserves the invariants
and never grows the registered total. -/
theorem removeFold_spec (ts : List (StoreId × ChunkInfo)) :
    ∀ t : GlobalMemoryTracker, t.WF → t.countersOK →
      (ts.foldl (fun tr p => tr.removeChunk p.1 p.2.index) t).WF
      ∧ (ts.foldl (fun tr p => tr.removeChunk p.1 p.2.index) t).countersOK
      ∧ (ts.foldl (fun tr p => tr.removeChunk p.1 p.2.index) t).accessCounter = t.accessCounter
      ∧ (ts.foldl (fun tr p => tr.removeChunk p.1 p.2.index) t).sumAll ≤ t.sumAll
      ∧ (ts.foldl (fun tr p => tr.removeChunk p.1 p.2.index) t).usedList.Sublist t.usedList := by
  induction ts with
  | nil => exact fun t hWF hC => ⟨hWF, hC, rfl, le_refl _, List.Sublist.refl _⟩
  | cons x ts ih =>
    intro t hWF hC
    obtain ⟨r1, r2, r3, r4⟩ := removeChunk_spec t x.1 x.2.index hWF
    have hC1 : (t.removeChunk x.1 x.2.index).countersOK :=
      countersOK_of_sub t (t.removeChunk x.1 x.2.index) hC r4 r2
    obtain ⟨w1, w2, w3, w4, w5⟩ := ih (t.removeChunk x.1 x.2.index) r1 hC1
    exact ⟨w1, w2, by rw [List.foldl_cons] at *; rw [w3, r2], le_trans w4 r3, w5.trans r4⟩

/-- `evictChunks` leaves the tracker well formed; it only removes. -/
theorem evictChunks_tracker_spec (s : MemoryLimitedStore) (t : GlobalMemoryTracker) (r : Nat)
    (hWF : t.WF) (hC : t.countersOK) :
    (s.evictChunks t r).2.WF
      ∧ (s.evictChunks t r).2.countersOK
      ∧ (s.evictChunks t r).2.accessCounter = t.accessCounter
      ∧ (s.evictChunks t r).2.sumAll ≤ t.sumAll
      ∧ (s.evictChunks t r).2.usedList.Sublist t.usedList := by
  unfold MemoryLimitedStore.evictChunks
  exact removeFold_spec _ t hWF hC

/-- The tracker `put` ends with: optional pre-eviction, then `addChunk`. -/
theorem put_tracker_eq (s : MemoryLimitedStore) (t : GlobalMemoryTracker) (i : Nat)
    (buf : JsBuffer) :
    (s.put t i buf).2 =
      (if t.getTotalMemory + (buf.length : Int) > t.getMaxMemory
        then (s.evictChunks t buf.length).2
        else t).addChunk s.storeId i buf.length := by
  unfold MemoryLimitedStore.put
  dsimp only
  split
  · rcases hsp : s.evictChunks t buf.length with ⟨s1, tr1⟩
    dsimp only
  · rfl

/-- `put` preserves the invariants and, under a nonnegative budget,
keeps the registered total within the budget: eviction happens before
the registration, and `addChunk` itself re-evicts if needed. -/
theorem put_spec (s : MemoryLimitedStore) (t : GlobalMemoryTracker) (i : Nat) (buf : JsBuffer)
    (hWF : t.WF) (hC : t.countersOK) :
    (s.put t i buf).2.WF
      ∧ (s.put t i buf).2.countersOK
      ∧ (s.put t i buf).2.maxMemory = t.maxMemory
      ∧ (0 ≤ t.maxMemory → (((s.put t i buf).2.sumAll : Int)) ≤ t.maxMemory) := by
  rw [put_tracker_eq]
  split
  · obtain ⟨e1, e2, e3, e4, e5⟩ := evictChunks_tracker_spec s t buf.length hWF hC
    obtain ⟨a1, a2, a3, a4, a5⟩ :=
      addChunk_spec (s.evictChunks t buf.length).2 s.storeId i buf.length e1 e2
    have hmax : (s.evictChunks t buf.length).2.maxMemory = t.maxMemory :=
      maxMemory_evictChunks s t buf.length
    refine ⟨a1, a2, by rw [a4, hmax], ?_⟩
    intro h
    rw [← hmax] at h
    rw [← hmax]
    exact a5 h
  · obtain ⟨a1, a2, a3, a4, a5⟩ := addChunk_spec t s.storeId i buf.length hWF hC
    exact ⟨a1, a2, a4, a5⟩

/-- `get` only touches the LRU stamp of the tracker: same totals. -/
theorem get_tracker_spec (s : MemoryLimitedStore) (t : GlobalMemoryTracker) (i : Nat)
    (hWF : t.WF) (hC : t.countersOK) :
    (s.get t i).2.WF
      ∧ (s.get t i).2.countersOK
      ∧ (s.get t i).2.sumAll = t.sumAll
      ∧ (s.get t i).2.maxMemory = t.maxMemory := by
  unfold MemoryLimitedStore.get
  split
  · exact ⟨hWF, hC, rfl, rfl⟩
  · dsimp only
    obtain ⟨w1, w2, w3, _⟩ := accessChunk_spec t s.storeId i hWF hC
    split
    · exact ⟨w1, w2, w3, maxMemory_accessChunk t s.storeId i⟩
    · exact ⟨w1, w2, w3, maxMemory_accessChunk t s.storeId i⟩

/-- C2: after every mutation of the global memory tracker — a `put` of
any buffer into any store, a `get`, a `removeChunk`, a `removeStore` —
the sum of the registered chunk sizes stays within the configured
`maxMemory`, provided it was within before the mutation; each mutation
also leaves the budget itself unchanged.  For `put` the bound needs no
headroom assumption beyond the invariant itself: eviction runs before
the registration (`evictChunks` inside `put`, `evictIfNeeded` at the
end of `addChunk`), not afterwards. -/
theorem C2_budget_invariant (t : GlobalMemoryTracker) (s : MemoryLimitedStore)
    (i : Nat) (buf : JsBuffer) (sid : StoreId)
    (hWF : t.WF) (hC : t.countersOK)
    (hinv : (t.sumAll : Int) ≤ t.maxMemory) :
    (((s.put t i buf).2.sumAll : Int) ≤ (s.put t i buf).2.maxMemory
        ∧ (s.put t i buf).2.maxMemory = t.maxMemory)
      ∧ (((s.get t i).2.sumAll : Int) ≤ (s.get t i).2.maxMemory
        ∧ (s.get t i).2.maxMemory = t.maxMemory)
      ∧ (((t.removeChunk sid i).sumAll : Int) ≤ (t.removeChunk sid i).maxMemory
        ∧ (t.removeChunk sid i).maxMemory = t.maxMemory)
      ∧ (((t.removeStore sid).sumAll : Int) ≤ (t.removeStore sid).maxMemory
        ∧ (t.removeStore sid).maxMemory = t.maxMemory) := by
  have hpos : (0 : Int) ≤ t.maxMemory := le_trans (Int.natCast_nonneg t.sumAll) hinv
  refine ⟨?_, ?_, ?_, ?_⟩
  · obtain ⟨_, _, p3, p4⟩ := put_spec s t i buf hWF hC
    exact ⟨by rw [p3]; exact p4 hpos, p3⟩
  · obtain ⟨_, _, g3, g4⟩ := get_tracker_spec s t i hWF hC
    refine ⟨?_, g4⟩
    rw [g3, g4]
    exact hinv
  · obtain ⟨_, _, r3, _⟩ := removeChunk_spec t sid i hWF
    have hm := maxMemory_removeChunk t sid i
    refine ⟨?_, hm⟩
    rw [hm]
    exact le_trans (by exact_mod_cast r3) hinv
  · obtain ⟨_, _, r3, _, hm⟩ := removeStore_spec t sid hWF
    refine ⟨?_, hm⟩
    rw [hm]
    exact le_trans (by exact_mod_cast r3) hinv

theorem C2_budget_invariant_witness :
    demoSmallTracker.WF ∧ demoSmallTracker.countersOK
      ∧ ((demoSmallTracker.sumAll : Int) ≤ demoSmallTracker.maxMemory)
      ∧ ((((demoStoreA.put demoSmallTracker 0 demoBufA).2.sumAll : Int) ≤
            (demoStoreA.put demoSmallTracker 0 demoBufA).2.maxMemory
          ∧ (demoStoreA.put demoSmallTracker 0 demoBufA).2.maxMemory =
            demoSmallTracker.maxMemory)
        ∧ (((demoStoreA.get demoSmallTracker 0).2.sumAll : Int) ≤
            (demoStoreA.get demoSmallTracker 0).2.maxMemory
          ∧ (demoStoreA.get demoSmallTracker 0).2.maxMemory = demoSmallTracker.maxMemory)
        ∧ (((demoSmallTracker.removeChunk "B" 0).sumAll : Int) ≤
            (demoSmallTracker.removeChunk "B" 0).maxMemory
          ∧ (demoSmallTracker.removeChunk "B" 0).maxMemory = demoSmallTracker.maxMemory)
        ∧ (((demoSmallTracker.removeStore "B").sumAll : Int) ≤
            (demoSmallTracker.removeStore "B").maxMemory
          ∧ (demoSmallTracker.removeStore "B").maxMemory = demoSmallTracker.maxMemory)) :=
  ⟨by unfold GlobalMemoryTracker.WF; decide,
    by unfold GlobalMemoryTracker.countersOK; decide, by decide,
    C2_budget_invariant demoSmallTracker demoStoreA 0 demoBufA "B"
      (by unfold GlobalMemoryTracker.WF; decide)
      (by unfold GlobalMemoryTracker.countersOK; decide) (by decide)⟩

/-! #### LRU exactness -/

/-- The `evictChunks` loop walks a prefix of the sorted snapshot. -/
theorem evictTargets_take (r : Nat) (l : List (StoreId × ChunkInfo)) :
    ∀ f : Nat, ∃ k, evictTargets r l f = l.take k := by
  induction l with
  | nil => exact fun f => ⟨0, rfl⟩
  | cons x rest ih =>
    intro f
    unfold evictTargets
    by_cases h : r ≤ f
    · exact ⟨0, by rw [if_pos h]; rfl⟩
    · obtain ⟨k, hk⟩ := ih (f + x.2.size)
      exact ⟨k + 1, by rw [if_neg h, hk]; rfl⟩

/-- Removing a list of resident chunks one by one leaves exactly the
rest: the fold in `evictChunks` removes its targets, nothing else. -/
theorem removeFold_perm (ts : List (StoreId × ChunkInfo)) :
    ∀ t : GlobalMemoryTracker, t.WF →
      ∀ rest, t.allChunksList.Perm (ts ++ rest) →
      (ts.foldl (fun tr p => tr.removeChunk p.1 p.2.index) t).allChunksList.Perm rest := by
  induction ts with
  | nil =>
    intro t _ rest h
    simpa using h
  | cons x ts ih =>
    intro t hWF rest h
    have hx : (x.1, x.2) ∈ flatReg t.chunks := by
      have hx' : x ∈ t.allChunksList := h.mem_iff.mpr (by simp)
      exact hx'
    obtain ⟨X, Y, hflat, hflat'⟩ := removeChunk_flat t x.1 x.2 hWF hx
    have h1 : (X ++ (x.1, x.2) :: Y).Perm (x :: (ts ++ rest)) := by
      rw [← hflat]
      exact h
    have h2 : ((x.1, x.2) :: (X ++ Y)).Perm (x :: (ts ++ rest)) :=
      List.perm_middle.symm.trans h1
    obtain ⟨r1, _, _, _⟩ := removeChunk_spec t x.1 x.2.index hWF
    have hstep : (t.removeChunk x.1 x.2.index).allChunksList.Perm (ts ++ rest) := by
      show (flatReg (t.removeChunk x.1 x.2.index).chunks).Perm (ts ++ rest)
      rw [hflat']
      exact h2.cons_inv
    have := ih (t.removeChunk x.1 x.2.index) r1 rest hstep
    simpa [List.foldl_cons] using this

/-- Exactness of one eviction round: the removed chunks are a prefix of
the `lastUsed`-sorted snapshot, the survivors are precisely the rest,
and every removed chunk is strictly older than every survivor. -/
theorem evictChunks_exact (s : MemoryLimitedStore) (t : GlobalMemoryTracker) (r : Nat)
    (hWF : t.WF) (hC : t.countersOK) :
    ∃ k, evictTargets r (sortedAllChunks t) 0 = (sortedAllChunks t).take k
      ∧ ((s.evictChunks t r).2.allChunksList).Perm ((sortedAllChunks t).drop k)
      ∧ ∀ a ∈ (sortedAllChunks t).take k, ∀ b ∈ (sortedAllChunks t).drop k,
          a.2.lastUsed < b.2.lastUsed := by
  obtain ⟨k, hk⟩ := evictTargets_take r (sortedAllChunks t) 0
  refine ⟨k, hk, ?_, ?_⟩
  · have heq : (s.evictChunks t r).2 =
        (evictTargets r (sortedAllChunks t) 0).foldl
          (fun tr p => tr.removeChunk p.1 p.2.index) t := rfl
    rw [heq, hk]
    apply removeFold_perm ((sortedAllChunks t).take k) t hWF ((sortedAllChunks t).drop k)
    rw [List.take_append_drop]
    exact (List.perm_insertionSort _ _).symm
  · have hsorted : List.Pairwise (fun a b : StoreId × ChunkInfo =>
        a.2.lastUsed ≤ b.2.lastUsed) (sortedAllChunks t) :=
      List.sorted_insertionSort _ _
    have hnd : ((sortedAllChunks t).map (fun p => p.2.lastUsed)).Nodup := by
      have hperm : ((sortedAllChunks t).map (fun p => p.2.lastUsed)).Perm
          (t.allChunksList.map (fun p => p.2.lastUsed)) :=
        (List.perm_insertionSort _ _).map _
      exact hperm.nodup_iff.mpr hC.1
    have hne : List.Pairwise (fun a b : StoreId × ChunkInfo =>
        a.2.lastUsed ≠ b.2.lastUsed) (sortedAllChunks t) :=
      List.pairwise_map.mp hnd
    have hboth := hsorted.and hne
    have hsplit : List.Pairwise (fun a b : StoreId × ChunkInfo =>
        a.2.lastUsed ≤ b.2.lastUsed ∧ a.2.lastUsed ≠ b.2.lastUsed)
        ((sortedAllChunks t).take k ++ (sortedAllChunks t).drop k) := by
      rw [List.take_append_drop]
      exact hboth
    intro a ha b hb
    have := (List.pairwise_append.mp hsplit).2.2 a ha b hb
    omega

/-- C3: (exact LRU) whenever `evictChunks` removes chunks, the removed
chunks are exactly a prefix of the cross-store snapshot sorted by
`lastUsed` — the survivors are precisely the remaining suffix, and
every removed chunk has a strictly smaller `lastUsed` than every
survivor; the sorted snapshot is a permutation of all resident chunks
ordered by `lastUsed`.  (strict global counter) `addChunk` bumps the
global counter by one and keeps the resident `lastUsed` stamps pairwise
distinct; a successful `accessChunk` bumps it likewise and keeps them
distinct; so ties between resident chunks cannot occur. -/
theorem C3_lru_exact_strict (t : GlobalMemoryTracker) (s : MemoryLimitedStore) (r : Nat)
    (sid : StoreId) (i sz : Nat)
    (hWF : t.WF) (hC : t.countersOK) :
    (∃ k, evictTargets r (sortedAllChunks t) 0 = (sortedAllChunks t).take k
      ∧ ((s.evictChunks t r).2.allChunksList).Perm ((sortedAllChunks t).drop k)
      ∧ ∀ a ∈ (sortedAllChunks t).take k, ∀ b ∈ (sortedAllChunks t).drop k,
          a.2.lastUsed < b.2.lastUsed)
    ∧ (sortedAllChunks t).Perm t.allChunksList
    ∧ List.Pairwise (fun a b : StoreId × ChunkInfo => a.2.lastUsed ≤ b.2.lastUsed)
        (sortedAllChunks t)
    ∧ ((t.addChunk sid i sz).accessCounter = t.accessCounter + 1
        ∧ (t.addChunk sid i sz).countersOK)
    ∧ ((t.accessChunk sid i).countersOK
        ∧ ∀ cs, regLookup t.chunks sid = some cs →
            (cs.find? (fun c => c.index = i)).isSome = true →
            (t.accessChunk sid i).accessCounter = t.accessCounter + 1) := by
  obtain ⟨a1, a2, a3, _, _⟩ := addChunk_spec t sid i sz hWF hC
  obtain ⟨_, c2, _, c4⟩ := accessChunk_spec t sid i hWF hC
  exact ⟨evictChunks_exact s t r hWF hC, List.perm_insertionSort _ _,
    List.sorted_insertionSort _ _, ⟨a3, a2⟩, c2, c4⟩

theorem C3_lru_exact_strict_witness :
    demoSmallTracker.WF ∧ demoSmallTracker.countersOK
      ∧ ((∃ k, evictTargets 70 (sortedAllChunks demoSmallTracker) 0 =
            (sortedAllChunks demoSmallTracker).take k
          ∧ (((demoStoreA.evictChunks demoSmallTracker 70).2.allChunksList).Perm
              ((sortedAllChunks demoSmallTracker).drop k))
          ∧ ∀ a ∈ (sortedAllChunks demoSmallTracker).take k,
              ∀ b ∈ (sortedAllChunks demoSmallTracker).drop k,
                a.2.lastUsed < b.2.lastUsed)
        ∧ (sortedAllChunks demoSmallTracker).Perm demoSmallTracker.allChunksList
        ∧ List.Pairwise (fun a b : StoreId × ChunkInfo => a.2.lastUsed ≤ b.2.lastUsed)
            (sortedAllChunks demoSmallTracker)
        ∧ ((demoSmallTracker.addChunk "A" 0 10).accessCounter =
              demoSmallTracker.accessCounter + 1
            ∧ (demoSmallTracker.addChunk "A" 0 10).countersOK)
        ∧ ((demoSmallTracker.accessChunk "A" 0).countersOK
            ∧ ∀ cs, regLookup demoSmallTracker.chunks "A" = some cs →
                (cs.find? (fun c => c.index = 0)).isSome = true →
                (demoSmallTracker.accessChunk "A" 0).accessCounter =
                  demoSmallTracker.accessCounter + 1)) :=
  ⟨by unfold GlobalMemoryTracker.WF; decide,
    by unfold GlobalMemoryTracker.countersOK; decide,
    C3_lru_exact_strict demoSmallTracker demoStoreA 70 "A" 0 10
      (by unfold GlobalMemoryTracker.WF; decide)
      (by unfold GlobalMemoryTracker.countersOK; decide)⟩
